import Mathlib

/-!
# TimeSeriesFit: forward Kalman filter and backward simulation smoother

A shallow embedding of `src/inst/include/TimeSeriesFit.h`.

Conventions of the embedding.

* `double` is idealised as a field `K` (the rationals when a run is evaluated,
  the reals when a limit is taken).  Division by a zero scalar is therefore
  the field convention `x / 0 = 0`; results that rely on a division assume
  the divisor is nonzero.  Rounding is not represented: an identity or an
  order relation proved here is one of exact arithmetic, and a binary64 run
  agrees with it only up to rounding error.
* Matrix shapes are carried in the types: `n` is `system_dim`, `p` is `D - 1`,
  `N` is the number of rows of `eta`, `F` has shape `n x 1`.  These are the
  shapes under which every Eigen product of `apply_Kalman_filter` is
  conformable.
* The members `Thetas_filtered`, `Rs`, `Ms`, `Cs`, `Thetas_smoothed`,
  `Ms_star`, `etas` are flattened buffers addressed by (row, column).  Freshly
  allocated buffers hold zeros; no result below depends on that content.
* C++ `int` is an `Int` kept in the 32-bit two's complement range: the one
  place where the method does arithmetic on an `int` member, `upsilon_t += 1`,
  wraps through `wrapInt32`.
* Eigen's Cholesky factorisation, the random samplers and `sqrt` are library
  code outside this file; they are the fields of `Prims`, and the random
  generator they share is an explicit state of type `ρ`.
* A product of non-conformable operands has no defined value; the smoother,
  the one place where the operand shapes can disagree, returns an `Option`.
  The assignment of the `1 x p` row `eta_t` to a column of `etas` is the
  coefficient-by-coefficient copy Eigen performs once its shape assertions are
  compiled out, as they are in an R package build.
-/

namespace TimeSeriesFit

open Matrix

/-! ## Storage -/

/-- A flattened buffer: `buf r c` is the coefficient at row `r`, column `c`. -/
abbrev Packed (K : Type) := Nat → Nat → K

/-- Single coefficient write `buf(r, c) = v`. -/
def setCell {K : Type} (buf : Packed K) (r c : Nat) (v : K) : Packed K :=
  fun r1 c1 => if r1 = r ∧ c1 = c then v else buf r1 c1

/-- The packing loops of `apply_Kalman_filter` (lines 134-145):
`for i < rows, for j < cols: buf(i + j*rows, col) = M(i, j)`.  The
`Eigen::Map` writes of the smoother address the column in the same
column-major order. -/
def packColumn {K : Type} {r c : Nat} (buf : Packed K) (col : Nat)
    (M : Matrix (Fin r) (Fin c) K) : Packed K :=
  (List.finRange r).foldl
    (fun b i => (List.finRange c).foldl
      (fun b1 j => setCell b1 (i.val + j.val * r) col (M i j)) b) buf

/-- The utility `unpack_sample(samples, no_rows, no_cols, sample_idx)`. -/
def unpack_sample {K : Type} (samples : Packed K) (no_rows no_cols : Nat)
    (sample_idx : Nat) : Matrix (Fin no_rows) (Fin no_cols) K :=
  Matrix.of fun i j => samples (i.val + j.val * no_rows) sample_idx

/-! ## Library primitives and the model configuration -/

/-- Library code used by the class: `Eigen::LLT(..).matrixL()`,
`rInvWishRevCholesky`, `rMatNormalCholesky`, `fillUnitNormal` and `sqrt`.
The samplers read and advance the generator state. -/
structure Prims (K : Type) (ρ : Type) where
  llt : (n : Nat) → Matrix (Fin n) (Fin n) K → Matrix (Fin n) (Fin n) K
  rInvWishRevCholesky : (p : Nat) → Int → Matrix (Fin p) (Fin p) K → ρ →
    Matrix (Fin p) (Fin p) K × ρ
  rMatNormalCholesky : (n p : Nat) → Matrix (Fin n) (Fin p) K →
    Matrix (Fin n) (Fin n) K → Matrix (Fin p) (Fin p) K → ρ →
    Matrix (Fin n) (Fin p) K × ρ
  fillUnitNormal : (a b : Nat) → ρ → Matrix (Fin a) (Fin b) K × ρ
  sqrt : K → K

/-- The constant members set by the constructor. -/
structure Model (K : Type) (n p : Nat) where
  F : Matrix (Fin n) (Fin 1) K
  G : Matrix (Fin n) (Fin n) K
  W : Matrix (Fin n) (Fin n) K
  W_scale : K
  gamma_scale : K
  upsilon : Int
  Xi : Matrix (Fin p) (Fin p) K
  M0 : Matrix (Fin n) (Fin p) K
  C0 : Matrix (Fin n) (Fin n) K
  observations : List Int

/-- The mutable members of the class, together with the generator state.
`N`, `D` and `system_dim` live in the types; the member `eta` is a copy of the
argument of `apply_Kalman_filter` that is read only inside that call. -/
structure Fit (K : Type) (ρ : Type) (p : Nat) where
  Thetas_filtered : Packed K
  upsilonT : Int
  XiT : Matrix (Fin p) (Fin p) K
  Thetas_smoothed : Packed K
  Ms_star : Packed K
  etas : Packed K
  T : Int
  Rs : Packed K
  Ms : Packed K
  Cs : Packed K
  filtered : Bool
  smoothed : Bool
  rng : ρ

/-- The constructor: `filtered = false; smoothed = false;`. -/
def Fit.new {K : Type} [Zero K] {ρ : Type} (p : Nat) (g : ρ) : Fit K ρ p :=
  { Thetas_filtered := fun _ _ => 0, upsilonT := 0, XiT := 0,
    Thetas_smoothed := fun _ _ => 0, Ms_star := fun _ _ => 0,
    etas := fun _ _ => 0, T := 0, Rs := fun _ _ => 0, Ms := fun _ _ => 0,
    Cs := fun _ _ => 0, filtered := false, smoothed := false, rng := g }

/-! ## The forward filter -/

/-- Body of `observations.maxCoeff()` for integer-valued entries.  Eigen leaves
the empty case undefined; here it yields `0`, so the time loop does not run. -/
def maxCoeff : List Int → Int
  | [] => 0
  | x :: xs => xs.foldl max x

/-- The inner scan (lines 101-106) over the entries from position `k` on:
every entry equal to `t` overwrites `curr_obs_idx` and sets `found`. -/
def scanObs : List Int → Nat → Int → Int × Bool → Int × Bool
  | [], _, _, acc => acc
  | o :: rest, k, t, acc =>
    if o = t then scanObs rest (k + 1) t ((k : Int), true)
    else scanObs rest (k + 1) t acc

/-- Lines 100-106: `found = false; for (k = curr_obs_idx+1; k < size; k++) ...`.
Returns the new `(curr_obs_idx, found)`. -/
def findObs (observations : List Int) (t : Int) (curr_obs_idx : Int) : Int × Bool :=
  scanObs (observations.drop (curr_obs_idx + 1).toNat) (curr_obs_idx + 1).toNat t
    (curr_obs_idx, false)

/-- The row `eta.row(k)` as a `1 x p` matrix.  A row outside the matrix is not
a defined read in Eigen; it reads as zero here. -/
def rowAt {K : Type} [Zero K] {N p : Nat} (eta : Matrix (Fin N) (Fin p) K) (k : Int) :
    Matrix (Fin 1) (Fin p) K :=
  Matrix.of fun _ j => if h : 0 ≤ k ∧ k.toNat < N then eta ⟨k.toNat, h.2⟩ j else 0

/-- Coefficient-wise division of a matrix by a scalar, `A / q`. -/
def divScalar {K : Type} [Div K] {a b : Nat} (A : Matrix (Fin a) (Fin b) K) (q : K) :
    Matrix (Fin a) (Fin b) K :=
  Matrix.of fun i j => A i j / q

/-- The local variables of `apply_Kalman_filter` that live across iterations
(lines 77-96), the four buffers it fills, and the generator state. -/
structure FilterState (K : Type) (ρ : Type) (n p : Nat) where
  upsilon_t : Int
  Xi_t : Matrix (Fin p) (Fin p) K
  M_t : Matrix (Fin n) (Fin p) K
  C_t : Matrix (Fin n) (Fin n) K
  A_t : Matrix (Fin n) (Fin p) K
  R_t : Matrix (Fin n) (Fin n) K
  ft_t : Matrix (Fin 1) (Fin p) K
  q_t : K
  et_t : Matrix (Fin 1) (Fin p) K
  S_t : Matrix (Fin n) (Fin 1) K
  LV : Matrix (Fin p) (Fin p) K
  LU : Matrix (Fin n) (Fin n) K
  Theta_t : Matrix (Fin n) (Fin p) K
  curr_obs_idx : Int
  found : Bool
  Thetas_filtered : Packed K
  Rs : Packed K
  Ms : Packed K
  Cs : Packed K
  rng : ρ

/-- Lines 77-96: the state on entry to the time loop. -/
def filterInit {K : Type} [Field K] {ρ : Type} {n p : Nat}
    (m : Model K n p) (g : ρ) : FilterState K ρ n p :=
  { upsilon_t := m.upsilon, Xi_t := m.Xi, M_t := m.M0, C_t := m.W_scale • m.C0,
    A_t := 0, R_t := 0, ft_t := 0, q_t := 0, et_t := 0, S_t := 0, LV := 0, LU := 0,
    Theta_t := 0, curr_obs_idx := -1, found := false,
    Thetas_filtered := fun _ _ => 0, Rs := fun _ _ => 0, Ms := fun _ _ => 0,
    Cs := fun _ _ => 0, rng := g }

/-- Line 109: `R_t = G*C_t*Gt + W*W_scale` as a function of the running `C_t`. -/
def priorCov {K : Type} [Field K] {n p : Nat} (m : Model K n p)
    (C : Matrix (Fin n) (Fin n) K) : Matrix (Fin n) (Fin n) K :=
  m.G * C * m.Gᵀ + m.W_scale • m.W

/-- Line 116: `q_t = gamma_scale + (Ft*R_t*F)(0,0)`. -/
def forecastVar {K : Type} [Field K] {n p : Nat} (m : Model K n p)
    (R : Matrix (Fin n) (Fin n) K) : K :=
  m.gamma_scale + (m.Fᵀ * R * m.F) 0 0

/-- The value a 32-bit two's complement `int` holds after an operation whose
mathematical result is `x`: `x` itself inside `[-2^31, 2^31 - 1]`, and `x`
reduced modulo `2^32` into that range outside it (`INT_MAX + 1` is `INT_MIN`). -/
def wrapInt32 (x : Int) : Int := (x + 2147483648) % 4294967296 - 2147483648

/-- Lines 100-124 of iteration `t`: the scan, the system prior and the two
branches of the posterior update. -/
def stepMoments {K : Type} [Field K] {ρ : Type} {n p N : Nat}
    (m : Model K n p) (eta : Matrix (Fin N) (Fin p) K) (t : Int)
    (s : FilterState K ρ n p) : FilterState K ρ n p :=
  let sc := findObs m.observations t s.curr_obs_idx
  let A_t := m.G * s.M_t
  let R_t := priorCov m s.C_t
  if sc.2 = false then
    { s with curr_obs_idx := sc.1, found := false, A_t := A_t, R_t := R_t,
             M_t := A_t, C_t := R_t }
  else
    let ft_t := m.Fᵀ * A_t
    let q_t := forecastVar m R_t
    let et_t := rowAt eta sc.1 - ft_t
    let S_t := divScalar (R_t * m.F) q_t
    { s with curr_obs_idx := sc.1, found := true, A_t := A_t, R_t := R_t,
             ft_t := ft_t, q_t := q_t, et_t := et_t, S_t := S_t,
             M_t := A_t + S_t * et_t,
             C_t := R_t - (q_t • S_t) * S_tᵀ,
             upsilon_t := wrapInt32 (s.upsilon_t + 1),
             Xi_t := s.Xi_t + divScalar (et_tᵀ * et_t) q_t }

/-- Lines 125-132: factor `C_t`, draw `LV` and `Theta_t`. -/
def stepSample {K : Type} {ρ : Type} {n p : Nat} (P : Prims K ρ)
    (s : FilterState K ρ n p) : FilterState K ρ n p :=
  let LU := P.llt n s.C_t
  let w := P.rInvWishRevCholesky p s.upsilon_t s.Xi_t s.rng
  let LV := (w.1)ᵀ
  let th := P.rMatNormalCholesky n p s.M_t LU LV w.2
  { s with LU := LU, LV := LV, Theta_t := th.1, rng := th.2 }

/-- Lines 134-145: write column `t-1` of the four buffers. -/
def stepArchive {K : Type} {ρ : Type} {n p : Nat} (t : Nat)
    (s : FilterState K ρ n p) : FilterState K ρ n p :=
  { s with Thetas_filtered := packColumn s.Thetas_filtered (t - 1) s.Theta_t,
           Ms := packColumn s.Ms (t - 1) s.M_t,
           Rs := packColumn s.Rs (t - 1) s.R_t,
           Cs := packColumn s.Cs (t - 1) s.C_t }

/-- One iteration of the time loop, for loop counter `t`. -/
def filterStep {K : Type} [Field K] {ρ : Type} {n p N : Nat} (P : Prims K ρ)
    (m : Model K n p) (eta : Matrix (Fin N) (Fin p) K) (t : Nat)
    (s : FilterState K ρ n p) : FilterState K ρ n p :=
  stepArchive t (stepSample P (stepMoments m eta (t : Int) s))

/-- The state after the iterations `1, ..., t` of the time loop. -/
def filterLoop {K : Type} [Field K] {ρ : Type} {n p N : Nat} (P : Prims K ρ)
    (m : Model K n p) (eta : Matrix (Fin N) (Fin p) K) (g : ρ) :
    Nat → FilterState K ρ n p
  | 0 => filterInit m g
  | t + 1 => filterStep P m eta (t + 1) (filterLoop P m eta g t)

/-- The method `apply_Kalman_filter(eta)`: the members on return, for a call that runs
to line 150.  Which calls do is the subject of `apply_Kalman_filter_outcome`. -/
def apply_Kalman_filter {K : Type} [Field K] {ρ : Type} {n p N : Nat} (P : Prims K ρ)
    (m : Model K n p) (eta : Matrix (Fin N) (Fin p) K) (fit : Fit K ρ p) : Fit K ρ p :=
  let T := maxCoeff m.observations
  let s := filterLoop P m eta fit.rng T.toNat
  { fit with T := T, Thetas_filtered := s.Thetas_filtered, Rs := s.Rs, Ms := s.Ms,
             Cs := s.Cs, upsilonT := s.upsilon_t, XiT := s.Xi_t, filtered := true,
             rng := s.rng }

/-! ## The backward simulation smoother -/

/-- The value of `R_t.inverse()` for an invertible matrix.  For a singular
argument Eigen returns non-finite coefficients, which the field `K` does not
have; results about `inverse` assume a nonzero determinant. -/
def inverse {K : Type} [Field K] {n : Nat} (A : Matrix (Fin n) (Fin n) K) :
    Matrix (Fin n) (Fin n) K :=
  (A.det)⁻¹ • A.adjugate

/-- The product `Z*(LV.transpose())` of lines 196 and 231, with `Z` of shape
`F.cols() x F.rows()`, that is `1 x n`, and `LV` of shape `p x p`.  Eigen
defines the product only for equal inner dimensions; `none` marks the
executions it leaves undefined. -/
def noiseTimesLVt {K : Type} [Field K] {n p : Nat} (Z : Matrix (Fin 1) (Fin n) K)
    (LV : Matrix (Fin p) (Fin p) K) : Option (Matrix (Fin 1) (Fin p) K) :=
  if h : n = p then some (Z.submatrix id (Fin.cast h.symm) * LVᵀ) else none

/-- The local variables of `apply_simulation_smoother`, the three buffers it
fills, and the generator state. -/
structure SmootherState (K : Type) (ρ : Type) (n p : Nat) where
  LV : Matrix (Fin p) (Fin p) K
  M_t : Matrix (Fin n) (Fin p) K
  C_t : Matrix (Fin n) (Fin n) K
  LU : Matrix (Fin n) (Fin n) K
  smoothed_Theta_t : Matrix (Fin n) (Fin p) K
  Z : Matrix (Fin 1) (Fin n) K
  eta_t : Matrix (Fin 1) (Fin p) K
  R_t : Matrix (Fin n) (Fin n) K
  R_t_inv : Matrix (Fin n) (Fin n) K
  Z_t : Matrix (Fin n) (Fin n) K
  A_t : Matrix (Fin n) (Fin p) K
  M_t_star : Matrix (Fin n) (Fin p) K
  C_t_star : Matrix (Fin n) (Fin n) K
  Thetas_smoothed : Packed K
  Ms_star : Packed K
  etas : Packed K
  rng : ρ

/-- Lines 168-203: the terminal step `t = T`.  The assignment
`etas.col(T-1) = eta_t` copies the `1 x p` row `eta_t` coefficient by
coefficient into the column. -/
def smootherTerminal {K : Type} [Field K] {ρ : Type} {n p : Nat} (P : Prims K ρ)
    (m : Model K n p) (fit : Fit K ρ p) : Option (SmootherState K ρ n p) :=
  let w := P.rInvWishRevCholesky p fit.upsilonT fit.XiT fit.rng
  let LV := (w.1)ᵀ
  let c := (fit.T - 1).toNat
  let M_t : Matrix (Fin n) (Fin p) K := unpack_sample fit.Ms n p c
  let C_t : Matrix (Fin n) (Fin n) K := unpack_sample fit.Cs n n c
  let LU := P.llt n C_t
  let th := P.rMatNormalCholesky n p M_t LU LV w.2
  let z := P.fillUnitNormal 1 n th.2
  match noiseTimesLVt z.1 LV with
  | none => none
  | some ZLV =>
    let eta_t := m.Fᵀ * th.1 + ZLV
    some { LV := LV, M_t := M_t, C_t := C_t, LU := LU, smoothed_Theta_t := th.1,
           Z := z.1, eta_t := eta_t, R_t := 0, R_t_inv := 0, Z_t := 0, A_t := 0,
           M_t_star := 0, C_t_star := 0,
           Thetas_smoothed := packColumn (fun _ _ => 0) c th.1,
           Ms_star := packColumn (fun _ _ => 0) c th.1,
           etas := packColumn (fun _ _ => 0) c eta_tᵀ,
           rng := z.2 }

/-- What lines 206-216 of a backward iteration compute; these lines are
conformable for every `system_dim` and `D - 1`. -/
structure BackwardDraw (K : Type) (ρ : Type) (n p : Nat) where
  R_t : Matrix (Fin n) (Fin n) K
  R_t_inv : Matrix (Fin n) (Fin n) K
  M_t : Matrix (Fin n) (Fin p) K
  C_t : Matrix (Fin n) (Fin n) K
  Z_t : Matrix (Fin n) (Fin n) K
  A_t : Matrix (Fin n) (Fin p) K
  M_t_star : Matrix (Fin n) (Fin p) K
  C_t_star : Matrix (Fin n) (Fin n) K
  LU : Matrix (Fin n) (Fin n) K
  smoothed_Theta_t : Matrix (Fin n) (Fin p) K
  rng : ρ

/-- Lines 206-216 for loop counter `t`: read the archive, form the smoothed
moments from the sample `theta_next` drawn for time `t+1`, and draw the
sample for time `t`.  `LV` and `g` are the column factor and the generator
state on entry. -/
def backwardDraw {K : Type} [Field K] {ρ : Type} {n p : Nat} (P : Prims K ρ)
    (m : Model K n p) (fit : Fit K ρ p) (t : Nat) (theta_next : Matrix (Fin n) (Fin p) K)
    (LV : Matrix (Fin p) (Fin p) K) (g : ρ) : BackwardDraw K ρ n p :=
  let R_t : Matrix (Fin n) (Fin n) K := unpack_sample fit.Rs n n t
  let R_t_inv := inverse R_t
  let M_t : Matrix (Fin n) (Fin p) K := unpack_sample fit.Ms n p (t - 1)
  let C_t : Matrix (Fin n) (Fin n) K := unpack_sample fit.Cs n n (t - 1)
  let Z_t := C_t * m.Gᵀ * R_t_inv
  let A_t := m.G * M_t
  let M_t_star := M_t + Z_t * (theta_next - A_t)
  let C_t_star := C_t - Z_t * R_t * Z_tᵀ
  let LU := P.llt n C_t_star
  let th := P.rMatNormalCholesky n p M_t_star LU LV g
  { R_t := R_t, R_t_inv := R_t_inv, M_t := M_t, C_t := C_t, Z_t := Z_t, A_t := A_t,
    M_t_star := M_t_star, C_t_star := C_t_star, LU := LU, smoothed_Theta_t := th.1,
    rng := th.2 }

/-- Lines 206-232: the body of the backward loop for loop counter `t`: the draw of
lines 206-216, the two column writes, and the response synthesis of lines 230-232. -/
def smootherStep {K : Type} [Field K] {ρ : Type} {n p : Nat} (P : Prims K ρ)
    (m : Model K n p) (fit : Fit K ρ p) (t : Nat) (s : SmootherState K ρ n p) :
    Option (SmootherState K ρ n p) :=
  let d := backwardDraw P m fit t s.smoothed_Theta_t s.LV s.rng
  let z := P.fillUnitNormal 1 n d.rng
  match noiseTimesLVt z.1 s.LV with
  | none => none
  | some ZLV =>
    let eta_t := m.Fᵀ * d.smoothed_Theta_t + P.sqrt m.gamma_scale • ZLV
    some { s with R_t := d.R_t, R_t_inv := d.R_t_inv, M_t := d.M_t, C_t := d.C_t,
                  Z_t := d.Z_t, A_t := d.A_t, M_t_star := d.M_t_star,
                  C_t_star := d.C_t_star, LU := d.LU,
                  smoothed_Theta_t := d.smoothed_Theta_t, Z := z.1, eta_t := eta_t,
                  Thetas_smoothed := packColumn s.Thetas_smoothed (t - 1) d.smoothed_Theta_t,
                  Ms_star := packColumn s.Ms_star (t - 1) d.smoothed_Theta_t,
                  etas := packColumn s.etas (t - 1) eta_tᵀ,
                  rng := z.2 }

/-- The backward loop `for (t = T-1; t > 0; t--)`, started with counter `t`. -/
def smootherLoop {K : Type} [Field K] {ρ : Type} {n p : Nat} (P : Prims K ρ)
    (m : Model K n p) (fit : Fit K ρ p) :
    Nat → SmootherState K ρ n p → Option (SmootherState K ρ n p)
  | 0, s => some s
  | t + 1, s => (smootherStep P m fit (t + 1) s).bind (smootherLoop P m fit t)

/-- The method `apply_simulation_smoother()`.  The body is guarded by
`if (filtered)`; without the flag the call returns with nothing changed. -/
def apply_simulation_smoother {K : Type} [Field K] {ρ : Type} {n p : Nat}
    (P : Prims K ρ) (m : Model K n p) (fit : Fit K ρ p) : Option (Fit K ρ p) :=
  if fit.filtered = true then
    ((smootherTerminal P m fit).bind
      (smootherLoop P m fit (fit.T - 1).toNat)).map
      fun s => { fit with Thetas_smoothed := s.Thetas_smoothed, Ms_star := s.Ms_star,
                          etas := s.etas, smoothed := true, rng := s.rng }
  else some fit

/-! ## The precomputed time-to-row map of the design notes -/

/-- One pass over the observation entries from position `k` on: the entry at
each position records that position under its time value, so a later row with
the same time value replaces an earlier one. -/
def lastRowFrom : List Int → Nat → (Int → Option Nat) → Int → Option Nat
  | [], _, mp => mp
  | o :: rest, k, mp => lastRowFrom rest (k + 1) (Function.update mp o (some k))

/-- The map from a time index to the last observation row recorded at that
time, built once before the forward pass (specification side of the scan). -/
def lastRowMap (observations : List Int) : Int → Option Nat :=
  lastRowFrom observations 0 (fun _ => none)

/-! ## Concrete runs -/

/-- Modelled from the spec: the matrix-normal sampler `rMatNormalCholesky` of the
repository's distribution header (section 4.3): mean `M`, left factor `L`,
right factor `R` and a standard normal draw `Z` give `M + L·Z·Rᵗ`. -/
def matNormalOf {K : Type} [Field K] {n p : Nat} (M : Matrix (Fin n) (Fin p) K)
    (L : Matrix (Fin n) (Fin n) K) (R : Matrix (Fin p) (Fin p) K)
    (Z : Matrix (Fin n) (Fin p) K) : Matrix (Fin n) (Fin p) K :=
  M + L * Z * Rᵀ

/-- A fixed outcome of the library calls, used to evaluate runs: every standard
normal coefficient drawn is `z`, the inverse-Wishart factor drawn is the
identity, and the Cholesky factor and the square root are returned for the
inputs on which they are the identity map (the identity matrix, and `0`, `1`). -/
def fixedDraw (K : Type) [Field K] (z : K) : Prims K Unit :=
  { llt := fun _ C => C,
    rInvWishRevCholesky := fun _ _ _ g => (1, g),
    rMatNormalCholesky := fun _ _ M L R g => (matNormalOf M L R (Matrix.of fun _ _ => z), g),
    fillUnitNormal := fun _ _ g => (Matrix.of fun _ _ => z, g),
    sqrt := fun x => x }

/-- The end-to-end scenario: `system_dim = 1`, `D - 1 = 1`, `F = G = W = [1]`,
`W_scale = gamma_scale = 1`, `upsilon = 3`, `Xi = [1]`, `M0 = [0]`, `C0 = [1]`,
`observations = [1, 2, 3]`. -/
def scalarModel : Model ℚ 1 1 :=
  { F := !![1], G := !![1], W := !![1], W_scale := 1, gamma_scale := 1, upsilon := 3,
    Xi := !![1], M0 := !![0], C0 := !![1], observations := [1, 2, 3] }

/-- The response rows `[0.5, -0.3, 0.8]` of the end-to-end scenario. -/
def scalarEta : Matrix (Fin 3) (Fin 1) ℚ := !![1/2; -3/10; 4/5]

/-- The gap scenario: the scalar model observed at times `1, 3, 5`. -/
def gapModel : Model ℚ 1 1 := { scalarModel with observations := [1, 3, 5] }

/-- The scalar model with two rows recorded at time `2`. -/
def tieModel : Model ℚ 1 1 := { scalarModel with observations := [1, 2, 2, 3] }

/-- Four response rows for `tieModel`. -/
def tieEta : Matrix (Fin 4) (Fin 1) ℚ := !![1/2; -3/10; 7/10; 4/5]

/-- The scalar model with a single observation at time `1`. -/
def oneStepModel : Model ℚ 1 1 := { scalarModel with observations := [1] }

/-- One response row for `oneStepModel`. -/
def oneStepEta : Matrix (Fin 1) (Fin 1) ℚ := !![1/2]

/-! ## Order predicates on covariance matrices -/

/-- Symmetric positive semi-definite: `A = Aᵀ` and `xᵀ A x ≥ 0` for every `x`. -/
def IsPSD {K : Type} [LinearOrderedField K] {n : Nat} (A : Matrix (Fin n) (Fin n) K) : Prop :=
  Aᵀ = A ∧ ∀ x : Fin n → K, 0 ≤ x ⬝ᵥ A.mulVec x

/-- Symmetric positive definite: `A = Aᵀ` and `xᵀ A x > 0` for every `x ≠ 0`. -/
def IsPD {K : Type} [LinearOrderedField K] {n : Nat} (A : Matrix (Fin n) (Fin n) K) : Prop :=
  Aᵀ = A ∧ ∀ x : Fin n → K, x ≠ 0 → 0 < x ⬝ᵥ A.mulVec x

/-- The scalar model observed once with a non-positive forecast variance:
`gamma_scale = -3`, so `q_1 = -3 + 2 = -1`. -/
def degenerateModel : Model ℚ 1 1 := { oneStepModel with gamma_scale := -3 }

/-- The scalar model observed once with `gamma_scale = 2`: the filter ends with
`M_1 = [1/4]` and `C_1 = [1]`, whose Cholesky factor is `[1]`. -/
def unitCovModel : Model ℚ 1 1 := { oneStepModel with gamma_scale := 2 }

/-! ## Families of models indexed by the two noise scales -/

/-- The configuration `m` with `W_scale` and `gamma_scale` replaced. -/
def withScales {K : Type} {n p : Nat} (m : Model K n p) (w γ : K) : Model K n p :=
  { m with W_scale := w, gamma_scale := γ }

/-- The scalar model with `F = G = W = C0 = [1]`, `M0 = [0]`, one observation at
time `1`, over any field (so that the scales can range over the reals). -/
def unitModel (K : Type) [Field K] : Model K 1 1 :=
  { F := Matrix.of fun _ _ => 1, G := Matrix.of fun _ _ => 1, W := Matrix.of fun _ _ => 1,
    W_scale := 1, gamma_scale := 1, upsilon := 3, Xi := Matrix.of fun _ _ => 1,
    M0 := Matrix.of fun _ _ => 0, C0 := Matrix.of fun _ _ => 1, observations := [1] }

/-- The single response row `[1/2]` over any field. -/
def halfEta (K : Type) [Field K] : Matrix (Fin 1) (Fin 1) K := Matrix.of fun _ _ => 1 / 2

/-- The scale-free recursion `B_0 = C0`, `B_t = G B_{t-1} Gᵀ + W`, which bounds the
running covariance: `C_t ≤ W_scale • B_t` when both scales are non-negative. -/
def scaleFreeCov {K : Type} [Field K] {n p : Nat} (m : Model K n p) :
    Nat → Matrix (Fin n) (Fin n) K
  | 0 => m.C0
  | t + 1 => m.G * scaleFreeCov m t * m.Gᵀ + m.W

/-- The scalar model with `F = G = [1]`, `C0 = [0]`, `M0 = [0]` and the noise-scale
matrix `W = [-1]`, which is not positive semi-definite; one observation at time `1`. -/
def negNoiseModel (K : Type) [Field K] : Model K 1 1 :=
  { unitModel K with W := Matrix.of fun _ _ => -1, C0 := Matrix.of fun _ _ => 0 }

/-- A configuration with `system_dim = 1` and `D - 1 = 2`: a scalar state observed
through two response columns, one observation at time `1`. -/
def wideResponseModel : Model ℚ 1 2 :=
  { F := !![1], G := !![1], W := !![1], W_scale := 1, gamma_scale := 1, upsilon := 3,
    Xi := 1, M0 := 0, C0 := !![1], observations := [1] }

/-- The single response row `[0.5, -0.3]` for `wideResponseModel`. -/
def wideResponseEta : Matrix (Fin 1) (Fin 2) ℚ := !![1/2, -3/10]

/-- The state of the smoother after the terminal step and `k` iterations of the
backward loop; iteration `k+1` runs with loop counter `t = (T-1) - k`. -/
def smootherAfter {K : Type} [Field K] {ρ : Type} {n p : Nat} (P : Prims K ρ)
    (m : Model K n p) (fit : Fit K ρ p) : Nat → Option (SmootherState K ρ n p)
  | 0 => smootherTerminal P m fit
  | k + 1 => (smootherAfter P m fit k).bind
      (smootherStep P m fit ((fit.T - 1).toNat - k))

/-- The one-observation scalar model with the prior degrees of freedom at the
largest `int`, `upsilon = INT_MAX = 2147483647`. -/
def intMaxOneStepModel : Model ℚ 1 1 := { oneStepModel with upsilon := 2147483647 }

/-- The end-to-end scenario with `upsilon = INT_MAX = 2147483647`. -/
def intMaxScalarModel : Model ℚ 1 1 := { scalarModel with upsilon := 2147483647 }

/-! ## The call of the filter with its failure modes -/

/-- The ways a call `apply_Kalman_filter(eta)` can end without returning the
members computed by `apply_Kalman_filter`.  Only `negativeHorizon` is an error
raised by the code (the allocation of the `T`-column buffers at lines 72-75
throws); the other three mark executions that leave this embedding: Eigen's
`maxCoeff()` of an empty vector and a row read past the end of `eta` have no
defined value, and a division by `q_t = 0` turns the doubles into non-finite
values, which the field `K` does not have. -/
inductive CallFailure where
  | emptyObservations : CallFailure
  | negativeHorizon : CallFailure
  | rowOutOfRange (t : Nat) : CallFailure
  | zeroForecastVariance (t : Nat) : CallFailure
  deriving DecidableEq

/-- What iteration `t`, ending in state `s`, did outside the embedding, if
anything: in the observation branch, the row read of line 118 for an index
that is not a row of `eta` (`N` rows), then the division of line 119 by a zero
`q_t`. -/
def stepFailure {K : Type} [Field K] [DecidableEq K] {ρ : Type} {n p : Nat} (N : Nat)
    (s : FilterState K ρ n p) (t : Nat) : Option CallFailure :=
  if s.found = true then
    if 0 ≤ s.curr_obs_idx ∧ s.curr_obs_idx.toNat < N then
      if s.q_t = 0 then some (CallFailure.zeroForecastVariance t) else none
    else some (CallFailure.rowOutOfRange t)
  else none

/-- The first of the iterations `1, ..., t` that leaves the embedding. -/
def firstFailure {K : Type} [Field K] [DecidableEq K] {ρ : Type} {n p N : Nat}
    (P : Prims K ρ) (m : Model K n p) (eta : Matrix (Fin N) (Fin p) K) (g : ρ) :
    Nat → Option CallFailure
  | 0 => none
  | t + 1 =>
    match firstFailure P m eta g t with
    | some e => some e
    | none => stepFailure N (filterLoop P m eta g (t + 1)) (t + 1)

/-- The call `apply_Kalman_filter(eta)` with its failure modes: line 68 on an
empty `observations`, the allocations of lines 72-75 for `T < 0`, then the
iterations; when none of them stops the call, the members are those computed
by `apply_Kalman_filter`. -/
def apply_Kalman_filter_outcome {K : Type} [Field K] [DecidableEq K] {ρ : Type}
    {n p N : Nat} (P : Prims K ρ) (m : Model K n p) (eta : Matrix (Fin N) (Fin p) K)
    (fit : Fit K ρ p) : Except CallFailure (Fit K ρ p) :=
  if m.observations = [] then Except.error CallFailure.emptyObservations
  else if maxCoeff m.observations < 0 then Except.error CallFailure.negativeHorizon
  else
    match firstFailure P m eta fit.rng (maxCoeff m.observations).toNat with
    | some e => Except.error e
    | none => Except.ok (apply_Kalman_filter P m eta fit)

/-- The scalar model whose only observation time is `-2`, so that `T = -2`. -/
def negativeTimeModel : Model ℚ 1 1 := { scalarModel with observations := [-2] }

/-! # Properties -/


theorem setCell_apply {K : Type} (buf : Packed K) (r c : Nat) (v : K) (r1 c1 : Nat) :
    setCell buf r c v r1 c1 = if r1 = r ∧ c1 = c then v else buf r1 c1 := rfl

/-- A run of writes into column `col` leaves every other column as it was. -/
theorem foldl_setCell_col_ne {K α : Type} (l : List α) (key : α → Nat) (val : α → K)
    (col : Nat) (buf : Packed K) (r1 c1 : Nat) (h : c1 ≠ col) :
    (l.foldl (fun b x => setCell b (key x) col (val x)) buf) r1 c1 = buf r1 c1 := by
  induction l generalizing buf with
  | nil => rfl
  | cons a l ih =>
    rw [List.foldl_cons, ih, setCell_apply, if_neg]
    exact fun hh => h hh.2

/-- A run of writes leaves a row untouched that is not among the written keys. -/
theorem foldl_setCell_row_ne {K α : Type} (l : List α) (key : α → Nat) (val : α → K)
    (col : Nat) (buf : Packed K) (r1 c1 : Nat) (h : ∀ x ∈ l, key x ≠ r1) :
    (l.foldl (fun b x => setCell b (key x) col (val x)) buf) r1 c1 = buf r1 c1 := by
  induction l generalizing buf with
  | nil => rfl
  | cons a l ih =>
    rw [List.foldl_cons, ih _ (fun x hx => h x (List.mem_cons_of_mem _ hx)), setCell_apply,
      if_neg]
    exact fun hh => h a (List.mem_cons_self _ _) hh.1.symm

/-- A run of writes with pairwise distinct keys stores each value at its key. -/
theorem foldl_setCell_mem {K α : Type} (l : List α) (key : α → Nat) (val : α → K)
    (col : Nat) (buf : Packed K) (hl : l.Pairwise (fun x y => key x ≠ key y))
    (a : α) (ha : a ∈ l) :
    (l.foldl (fun b x => setCell b (key x) col (val x)) buf) (key a) col = val a := by
  induction l generalizing buf with
  | nil => cases ha
  | cons b l ih =>
    rw [List.pairwise_cons] at hl
    rw [List.foldl_cons]
    rcases List.mem_cons.1 ha with h | h
    · subst h
      rw [foldl_setCell_row_ne _ _ _ _ _ _ _ (fun x hx => (hl.1 x hx).symm), setCell_apply,
        if_pos ⟨rfl, rfl⟩]
    · exact ih _ hl.2 h

theorem packColumn_col_ne {K : Type} {r c : Nat} (buf : Packed K) (col : Nat)
    (M : Matrix (Fin r) (Fin c) K) (r1 c1 : Nat) (h : c1 ≠ col) :
    packColumn buf col M r1 c1 = buf r1 c1 := by
  unfold packColumn
  generalize List.finRange r = l
  induction l generalizing buf with
  | nil => rfl
  | cons a l ih => rw [List.foldl_cons, ih, foldl_setCell_col_ne _ _ _ _ _ _ _ h]

theorem key_mod {r : Nat} (i : Fin r) (j : Nat) : (i.val + j * r) % r = i.val := by
  rw [Nat.add_mul_mod_self_right, Nat.mod_eq_of_lt i.isLt]

theorem packColumn_same {K : Type} {r c : Nat} (buf : Packed K) (col : Nat)
    (M : Matrix (Fin r) (Fin c) K) (i : Fin r) (j : Fin c) :
    packColumn buf col M (i.val + j.val * r) col = M i j := by
  unfold packColumn
  have key : ∀ (l : List (Fin r)) (b : Packed K), l.Nodup → i ∈ l →
      (l.foldl (fun b i => (List.finRange c).foldl
        (fun b1 j => setCell b1 (i.val + j.val * r) col (M i j)) b) b)
        (i.val + j.val * r) col = M i j := by
    intro l
    induction l with
    | nil => intro b _ h; cases h
    | cons a l ih =>
      intro b hnd hmem
      rw [List.nodup_cons] at hnd
      rw [List.foldl_cons]
      by_cases hil : i ∈ l
      · exact ih _ hnd.2 hil
      · have hia : i = a := by
          rcases List.mem_cons.1 hmem with h | h
          · exact h
          · exact absurd h hil
        subst hia
        have hrest : ∀ (l2 : List (Fin r)) (b2 : Packed K), i ∉ l2 →
            (l2.foldl (fun b i => (List.finRange c).foldl
              (fun b1 j => setCell b1 (i.val + j.val * r) col (M i j)) b) b2)
              (i.val + j.val * r) col = b2 (i.val + j.val * r) col := by
          intro l2
          induction l2 with
          | nil => intro b2 _; rfl
          | cons a2 l2 ih2 =>
            intro b2 hn
            rw [List.foldl_cons, ih2 _ (fun h => hn (List.mem_cons_of_mem _ h))]
            apply foldl_setCell_row_ne
            intro x _ hx
            have h1 := key_mod a2 x.val
            have h2 := key_mod i j.val
            rw [hx, h2] at h1
            exact hn (by rw [Fin.ext h1]; exact List.mem_cons_self _ _)
        rw [hrest l _ hil]
        apply foldl_setCell_mem (List.finRange c) (fun x : Fin c => i.val + x.val * r)
          (fun x => M i x) col b _ j (List.mem_finRange j)
        have hnd2 := List.nodup_finRange c
        refine List.Pairwise.imp ?_ hnd2
        intro x y hxy hk
        apply hxy
        have hpos : 0 < r := Nat.lt_of_le_of_lt (Nat.zero_le _) i.isLt
        have : x.val * r = y.val * r := Nat.add_left_cancel hk
        exact Fin.ext (Nat.eq_of_mul_eq_mul_right hpos this)
  exact key _ buf (List.nodup_finRange r) (List.mem_finRange i)

theorem unpack_packColumn {K : Type} {r c : Nat} (buf : Packed K) (col : Nat)
    (M : Matrix (Fin r) (Fin c) K) :
    unpack_sample (packColumn buf col M) r c col = M := by
  ext i j
  simp [unpack_sample, packColumn_same]

theorem unpack_packColumn_ne {K : Type} {r c a b : Nat} (buf : Packed K) (col col1 : Nat)
    (M : Matrix (Fin r) (Fin c) K) (h : col1 ≠ col) :
    unpack_sample (packColumn buf col M) a b col1 = unpack_sample buf a b col1 := by
  ext i j
  simp [unpack_sample, packColumn_col_ne _ _ _ _ _ h]

/-! ## One iteration of the forward filter -/

section Step

variable {K : Type} [Field K] {ρ : Type} {n p N : Nat}

theorem stepMoments_found (m : Model K n p) (eta : Matrix (Fin N) (Fin p) K) (t : Int)
    (s : FilterState K ρ n p) :
    (stepMoments m eta t s).found = (findObs m.observations t s.curr_obs_idx).2 := by
  rcases Bool.eq_false_or_eq_true (findObs m.observations t s.curr_obs_idx).2 with h | h <;>
    simp [stepMoments, h]

theorem stepMoments_curr (m : Model K n p) (eta : Matrix (Fin N) (Fin p) K) (t : Int)
    (s : FilterState K ρ n p) :
    (stepMoments m eta t s).curr_obs_idx = (findObs m.observations t s.curr_obs_idx).1 := by
  unfold stepMoments
  by_cases h : (findObs m.observations t s.curr_obs_idx).2 = false <;> simp [h]

theorem stepMoments_R (m : Model K n p) (eta : Matrix (Fin N) (Fin p) K) (t : Int)
    (s : FilterState K ρ n p) :
    (stepMoments m eta t s).R_t = priorCov m s.C_t := by
  unfold stepMoments
  by_cases h : (findObs m.observations t s.curr_obs_idx).2 = false <;> simp [h]

theorem stepMoments_A (m : Model K n p) (eta : Matrix (Fin N) (Fin p) K) (t : Int)
    (s : FilterState K ρ n p) :
    (stepMoments m eta t s).A_t = m.G * s.M_t := by
  unfold stepMoments
  by_cases h : (findObs m.observations t s.curr_obs_idx).2 = false <;> simp [h]

theorem stepMoments_buffers (m : Model K n p) (eta : Matrix (Fin N) (Fin p) K) (t : Int)
    (s : FilterState K ρ n p) :
    (stepMoments m eta t s).Thetas_filtered = s.Thetas_filtered ∧
    (stepMoments m eta t s).Rs = s.Rs ∧ (stepMoments m eta t s).Ms = s.Ms ∧
    (stepMoments m eta t s).Cs = s.Cs ∧ (stepMoments m eta t s).rng = s.rng := by
  unfold stepMoments
  by_cases h : (findObs m.observations t s.curr_obs_idx).2 = false <;> simp [h]

/-- The no-observation branch (lines 111-112). -/
theorem stepMoments_gap (m : Model K n p) (eta : Matrix (Fin N) (Fin p) K) (t : Int)
    (s : FilterState K ρ n p) (h : (findObs m.observations t s.curr_obs_idx).2 = false) :
    (stepMoments m eta t s).M_t = m.G * s.M_t ∧
    (stepMoments m eta t s).C_t = priorCov m s.C_t ∧
    (stepMoments m eta t s).upsilon_t = s.upsilon_t ∧
    (stepMoments m eta t s).Xi_t = s.Xi_t := by
  unfold stepMoments
  simp [h]

/-- The observation branch (lines 115-123). -/
theorem stepMoments_obs (m : Model K n p) (eta : Matrix (Fin N) (Fin p) K) (t : Int)
    (s : FilterState K ρ n p) (h : (findObs m.observations t s.curr_obs_idx).2 = true) :
    (stepMoments m eta t s).ft_t = m.Fᵀ * (m.G * s.M_t) ∧
    (stepMoments m eta t s).q_t = forecastVar m (priorCov m s.C_t) ∧
    (stepMoments m eta t s).et_t =
      rowAt eta (findObs m.observations t s.curr_obs_idx).1 - m.Fᵀ * (m.G * s.M_t) ∧
    (stepMoments m eta t s).S_t =
      divScalar (priorCov m s.C_t * m.F) (forecastVar m (priorCov m s.C_t)) ∧
    (stepMoments m eta t s).M_t =
      m.G * s.M_t + (stepMoments m eta t s).S_t * (stepMoments m eta t s).et_t ∧
    (stepMoments m eta t s).C_t =
      priorCov m s.C_t - ((stepMoments m eta t s).q_t • (stepMoments m eta t s).S_t) *
        ((stepMoments m eta t s).S_t)ᵀ ∧
    (stepMoments m eta t s).upsilon_t = wrapInt32 (s.upsilon_t + 1) ∧
    (stepMoments m eta t s).Xi_t =
      s.Xi_t + divScalar (((stepMoments m eta t s).et_t)ᵀ * (stepMoments m eta t s).et_t)
        (stepMoments m eta t s).q_t := by
  unfold stepMoments
  simp [h]

theorem filterLoop_succ (P : Prims K ρ) (m : Model K n p) (eta : Matrix (Fin N) (Fin p) K)
    (g : ρ) (t : Nat) :
    filterLoop P m eta g (t + 1) = filterStep P m eta (t + 1) (filterLoop P m eta g t) := rfl

theorem filterLoop_found (P : Prims K ρ) (m : Model K n p) (eta : Matrix (Fin N) (Fin p) K)
    (g : ρ) (t : Nat) :
    (filterLoop P m eta g (t + 1)).found =
      (findObs m.observations ((t + 1 : Nat) : Int) (filterLoop P m eta g t).curr_obs_idx).2 :=
  stepMoments_found m eta _ _

theorem filterLoop_curr (P : Prims K ρ) (m : Model K n p) (eta : Matrix (Fin N) (Fin p) K)
    (g : ρ) (t : Nat) :
    (filterLoop P m eta g (t + 1)).curr_obs_idx =
      (findObs m.observations ((t + 1 : Nat) : Int) (filterLoop P m eta g t).curr_obs_idx).1 :=
  stepMoments_curr m eta _ _

theorem filterLoop_R (P : Prims K ρ) (m : Model K n p) (eta : Matrix (Fin N) (Fin p) K)
    (g : ρ) (t : Nat) :
    (filterLoop P m eta g (t + 1)).R_t = priorCov m (filterLoop P m eta g t).C_t :=
  stepMoments_R m eta _ _

/-- Iteration `t+1` when no observation is matched. -/
theorem filterLoop_gap (P : Prims K ρ) (m : Model K n p) (eta : Matrix (Fin N) (Fin p) K)
    (g : ρ) (t : Nat) (h : (filterLoop P m eta g (t + 1)).found = false) :
    (filterLoop P m eta g (t + 1)).M_t = m.G * (filterLoop P m eta g t).M_t ∧
    (filterLoop P m eta g (t + 1)).C_t = priorCov m (filterLoop P m eta g t).C_t ∧
    (filterLoop P m eta g (t + 1)).upsilon_t = (filterLoop P m eta g t).upsilon_t ∧
    (filterLoop P m eta g (t + 1)).Xi_t = (filterLoop P m eta g t).Xi_t :=
  stepMoments_gap m eta _ _ (by rw [← filterLoop_found P m eta g t]; exact h)

/-- Iteration `t+1` when an observation is matched. -/
theorem filterLoop_obs (P : Prims K ρ) (m : Model K n p) (eta : Matrix (Fin N) (Fin p) K)
    (g : ρ) (t : Nat) (h : (filterLoop P m eta g (t + 1)).found = true) :
    (filterLoop P m eta g (t + 1)).ft_t = m.Fᵀ * (m.G * (filterLoop P m eta g t).M_t) ∧
    (filterLoop P m eta g (t + 1)).q_t =
      forecastVar m (priorCov m (filterLoop P m eta g t).C_t) ∧
    (filterLoop P m eta g (t + 1)).et_t =
      rowAt eta (filterLoop P m eta g (t + 1)).curr_obs_idx -
        m.Fᵀ * (m.G * (filterLoop P m eta g t).M_t) ∧
    (filterLoop P m eta g (t + 1)).S_t =
      divScalar (priorCov m (filterLoop P m eta g t).C_t * m.F)
        (forecastVar m (priorCov m (filterLoop P m eta g t).C_t)) ∧
    (filterLoop P m eta g (t + 1)).M_t =
      m.G * (filterLoop P m eta g t).M_t +
        (filterLoop P m eta g (t + 1)).S_t * (filterLoop P m eta g (t + 1)).et_t ∧
    (filterLoop P m eta g (t + 1)).C_t =
      priorCov m (filterLoop P m eta g t).C_t -
        ((filterLoop P m eta g (t + 1)).q_t • (filterLoop P m eta g (t + 1)).S_t) *
          ((filterLoop P m eta g (t + 1)).S_t)ᵀ ∧
    (filterLoop P m eta g (t + 1)).upsilon_t =
      wrapInt32 ((filterLoop P m eta g t).upsilon_t + 1) ∧
    (filterLoop P m eta g (t + 1)).Xi_t =
      (filterLoop P m eta g t).Xi_t +
        divScalar (((filterLoop P m eta g (t + 1)).et_t)ᵀ * (filterLoop P m eta g (t + 1)).et_t)
          (filterLoop P m eta g (t + 1)).q_t := by
  have h1 := stepMoments_obs m eta ((t + 1 : Nat) : Int) (filterLoop P m eta g t)
    (by rw [← filterLoop_found P m eta g t]; exact h)
  rw [filterLoop_curr]
  exact h1

theorem filterStep_buffers (P : Prims K ρ) (m : Model K n p)
    (eta : Matrix (Fin N) (Fin p) K) (t : Nat) (s : FilterState K ρ n p) :
    (filterStep P m eta t s).Ms = packColumn s.Ms (t - 1) (filterStep P m eta t s).M_t ∧
    (filterStep P m eta t s).Rs = packColumn s.Rs (t - 1) (filterStep P m eta t s).R_t ∧
    (filterStep P m eta t s).Cs = packColumn s.Cs (t - 1) (filterStep P m eta t s).C_t ∧
    (filterStep P m eta t s).Thetas_filtered =
      packColumn s.Thetas_filtered (t - 1) (filterStep P m eta t s).Theta_t := by
  have hb := stepMoments_buffers m eta (t : Int) s
  refine ⟨?_, ?_, ?_, ?_⟩
  · show packColumn (stepMoments m eta (t : Int) s).Ms _ _ = _
    rw [hb.2.2.1]; rfl
  · show packColumn (stepMoments m eta (t : Int) s).Rs _ _ = _
    rw [hb.2.1]; rfl
  · show packColumn (stepMoments m eta (t : Int) s).Cs _ _ = _
    rw [hb.2.2.2.1]; rfl
  · show packColumn (stepMoments m eta (t : Int) s).Thetas_filtered _ _ = _
    rw [hb.1]; rfl

/-- Column `u` of each archive buffer holds what iteration `u+1` computed, however many
later iterations have run. -/
theorem filterLoop_archive (P : Prims K ρ) (m : Model K n p) (eta : Matrix (Fin N) (Fin p) K)
    (g : ρ) (t u : Nat) (hu : u < t) :
    unpack_sample (filterLoop P m eta g t).Ms n p u = (filterLoop P m eta g (u + 1)).M_t ∧
    unpack_sample (filterLoop P m eta g t).Rs n n u = (filterLoop P m eta g (u + 1)).R_t ∧
    unpack_sample (filterLoop P m eta g t).Cs n n u = (filterLoop P m eta g (u + 1)).C_t ∧
    unpack_sample (filterLoop P m eta g t).Thetas_filtered n p u =
      (filterLoop P m eta g (u + 1)).Theta_t := by
  induction t with
  | zero => exact absurd hu (Nat.not_lt_zero _)
  | succ t ih =>
    rcases Nat.lt_succ_iff_lt_or_eq.1 hu with h | h
    · have ih1 := ih h
      have hne : u ≠ t + 1 - 1 := by omega
      refine ⟨?_, ?_, ?_, ?_⟩
      · rw [← ih1.1, filterLoop_succ, (filterStep_buffers P m eta _ _).1]
        exact unpack_packColumn_ne _ _ _ _ hne
      · rw [← ih1.2.1, filterLoop_succ, (filterStep_buffers P m eta _ _).2.1]
        exact unpack_packColumn_ne _ _ _ _ hne
      · rw [← ih1.2.2.1, filterLoop_succ, (filterStep_buffers P m eta _ _).2.2.1]
        exact unpack_packColumn_ne _ _ _ _ hne
      · rw [← ih1.2.2.2, filterLoop_succ, (filterStep_buffers P m eta _ _).2.2.2]
        exact unpack_packColumn_ne _ _ _ _ hne
    · subst h
      have hb := filterStep_buffers P m eta (u + 1) (filterLoop P m eta g u)
      rw [filterLoop_succ]
      refine ⟨?_, ?_, ?_, ?_⟩
      · rw [hb.1]; exact unpack_packColumn _ _ _
      · rw [hb.2.1]; exact unpack_packColumn _ _ _
      · rw [hb.2.2.1]; exact unpack_packColumn _ _ _
      · rw [hb.2.2.2]; exact unpack_packColumn _ _ _

end Step

/-! ## The observation scan -/

theorem scanObs_not_mem (l : List Int) (k : Nat) (t : Int) (acc : Int × Bool)
    (h : t ∉ l) : scanObs l k t acc = acc := by
  induction l generalizing k acc with
  | nil => rfl
  | cons o rest ih =>
    have ho : o ≠ t := fun e => h (e ▸ List.mem_cons_self _ _)
    rw [scanObs, if_neg ho]
    exact ih _ _ (fun hm => h (List.mem_cons_of_mem _ hm))

/-- When `t` occurs in the scanned entries, the scan ends on the last position holding it. -/
theorem scanObs_mem (l : List Int) (k : Nat) (t : Int) (acc : Int × Bool) (h : t ∈ l) :
    ∃ i : Nat, scanObs l k t acc = (((k + i : Nat) : Int), true) ∧ l[i]? = some t ∧
      ∀ j, i < j → l[j]? ≠ some t := by
  induction l generalizing k acc with
  | nil => cases h
  | cons o rest ih =>
    by_cases hr : t ∈ rest
    · have key : ∀ acc1, ∃ i : Nat, scanObs rest (k + 1) t acc1 = (((k + 1 + i : Nat) : Int), true) ∧
          rest[i]? = some t ∧ ∀ j, i < j → rest[j]? ≠ some t := fun acc1 => ih (k + 1) acc1 hr
      have step : ∃ acc1, scanObs (o :: rest) k t acc = scanObs rest (k + 1) t acc1 := by
        by_cases ho : o = t
        · exact ⟨_, by rw [scanObs, if_pos ho]⟩
        · exact ⟨_, by rw [scanObs, if_neg ho]⟩
      obtain ⟨acc1, hacc⟩ := step
      obtain ⟨i, h1, h2, h3⟩ := key acc1
      refine ⟨i + 1, ?_, ?_, ?_⟩
      · rw [hacc, h1]
        congr 2
        omega
      · simpa using h2
      · intro j hj
        obtain ⟨j1, rfl⟩ : ∃ j1, j = j1 + 1 := ⟨j - 1, by omega⟩
        simpa using h3 j1 (by omega)
    · have ho : o = t := by
        rcases List.mem_cons.1 h with e | e
        · exact e.symm
        · exact absurd e hr
      refine ⟨0, ?_, ?_, ?_⟩
      · rw [scanObs, if_pos ho, scanObs_not_mem _ _ _ _ hr]
        rfl
      · simp [ho]
      · intro j hj
        obtain ⟨j1, rfl⟩ : ∃ j1, j = j1 + 1 := ⟨j - 1, by omega⟩
        intro hc
        apply hr
        have : rest[j1]? = some t := by simpa using hc
        exact List.getElem?_mem this

theorem lastRowFrom_not_mem (l : List Int) (k : Nat) (mp : Int → Option Nat) (t : Int)
    (h : t ∉ l) : lastRowFrom l k mp t = mp t := by
  induction l generalizing k mp with
  | nil => rfl
  | cons o rest ih =>
    have ho : t ≠ o := fun e => h (e ▸ List.mem_cons_self _ _)
    rw [lastRowFrom, ih _ _ (fun hm => h (List.mem_cons_of_mem _ hm)),
      Function.update_noteq ho]

theorem lastRowFrom_mem (l : List Int) (k : Nat) (mp : Int → Option Nat) (t : Int)
    (h : t ∈ l) :
    ∃ i : Nat, lastRowFrom l k mp t = some (k + i) ∧ l[i]? = some t ∧
      ∀ j, i < j → l[j]? ≠ some t := by
  induction l generalizing k mp with
  | nil => cases h
  | cons o rest ih =>
    by_cases hr : t ∈ rest
    · obtain ⟨i, h1, h2, h3⟩ := ih (k + 1) (Function.update mp o (some k)) hr
      refine ⟨i + 1, ?_, ?_, ?_⟩
      · rw [lastRowFrom, h1]
        congr 1
        omega
      · simpa using h2
      · intro j hj
        obtain ⟨j1, rfl⟩ : ∃ j1, j = j1 + 1 := ⟨j - 1, by omega⟩
        simpa using h3 j1 (by omega)
    · have ho : o = t := by
        rcases List.mem_cons.1 h with e | e
        · exact e.symm
        · exact absurd e hr
      refine ⟨0, ?_, ?_, ?_⟩
      · rw [lastRowFrom, lastRowFrom_not_mem _ _ _ _ hr, ho, Function.update_same]
        rfl
      · simp [ho]
      · intro j hj
        obtain ⟨j1, rfl⟩ : ∃ j1, j = j1 + 1 := ⟨j - 1, by omega⟩
        intro hc
        apply hr
        have : rest[j1]? = some t := by simpa using hc
        exact List.getElem?_mem this

/-- The last position holding `t` is unique. -/
theorem last_index_unique (l : List Int) (t : Int) (i k : Nat)
    (hi : l[i]? = some t) (hi2 : ∀ j, i < j → l[j]? ≠ some t)
    (hk : l[k]? = some t) (hk2 : ∀ j, k < j → l[j]? ≠ some t) : i = k := by
  rcases Nat.lt_trichotomy i k with h | h | h
  · exact absurd hk (hi2 k h)
  · exact h
  · exact absurd hi (hk2 i h)

theorem sorted_getElem?_le (l : List Int) (hs : l.Sorted (· ≤ ·)) (i k : Nat) (a b : Int)
    (hik : i ≤ k) (hi : l[i]? = some a) (hk : l[k]? = some b) : a ≤ b := by
  obtain ⟨h1, e1⟩ := List.getElem?_eq_some.1 hi
  obtain ⟨h2, e2⟩ := List.getElem?_eq_some.1 hk
  have := hs.rel_get_of_le (a := ⟨i, h1⟩) (b := ⟨k, h2⟩) hik
  simp only [List.get_eq_getElem] at this
  rw [e1, e2] at this
  exact this

/-- The carried-over scan on a non-decreasing sequence: if the entry at the carried index is
below `t`, the scan from the next position finds `t` exactly when `t` occurs anywhere, and
it stops on the last occurrence. -/
theorem findObs_sorted (obs : List Int) (hs : obs.Sorted (· ≤ ·)) (t c : Int)
    (hc : c = -1 ∨ ∃ k : Nat, c = (k : Int) ∧ ∃ v, obs[k]? = some v ∧ v < t) :
    (t ∈ obs → ∃ k : Nat, findObs obs t c = ((k : Int), true) ∧ obs[k]? = some t ∧
      ∀ j, k < j → obs[j]? ≠ some t) ∧
    (t ∉ obs → findObs obs t c = (c, false)) := by
  have hd : ∀ i : Nat, obs[i]? = some t → (c + 1).toNat ≤ i := by
    intro i hi
    rcases hc with rfl | ⟨k, rfl, v, hv, hvt⟩
    · simp
    · by_contra hlt
      have hik : i ≤ k := by omega
      have := sorted_getElem?_le obs hs i k t v hik hi hv
      omega
  constructor
  · intro hmem
    have hmem2 : t ∈ obs.drop (c + 1).toNat := by
      obtain ⟨i, hi⟩ := List.getElem?_of_mem hmem
      have hle := hd i hi
      apply List.getElem?_mem (n := i - (c + 1).toNat)
      rw [List.getElem?_drop]
      rw [show (c + 1).toNat + (i - (c + 1).toNat) = i by omega]
      exact hi
    obtain ⟨i, h1, h2, h3⟩ := scanObs_mem _ (c + 1).toNat t (c, false) hmem2
    refine ⟨(c + 1).toNat + i, h1, ?_, ?_⟩
    · rw [← List.getElem?_drop]; exact h2
    · intro j hj
      have := h3 (j - (c + 1).toNat) (by omega)
      rw [List.getElem?_drop, show (c + 1).toNat + (j - (c + 1).toNat) = j by omega] at this
      exact this
  · intro hmem
    exact scanObs_not_mem _ _ _ _ (fun h => hmem (List.mem_of_mem_drop h))

section Scan

variable {K : Type} [Field K] {ρ : Type} {n p N : Nat}

/-- On a non-decreasing sequence the carried index always points at an entry that is at
most the current loop counter. -/
theorem filterLoop_curr_inv (P : Prims K ρ) (m : Model K n p) (eta : Matrix (Fin N) (Fin p) K)
    (g : ρ) (hs : m.observations.Sorted (· ≤ ·)) (t : Nat) :
    (filterLoop P m eta g t).curr_obs_idx = -1 ∨
      ∃ k : Nat, (filterLoop P m eta g t).curr_obs_idx = (k : Int) ∧
        ∃ v, m.observations[k]? = some v ∧ v ≤ (t : Int) := by
  induction t with
  | zero => left; rfl
  | succ t ih =>
    have hc : (filterLoop P m eta g t).curr_obs_idx = -1 ∨
        ∃ k : Nat, (filterLoop P m eta g t).curr_obs_idx = (k : Int) ∧
          ∃ v, m.observations[k]? = some v ∧ v < ((t + 1 : Nat) : Int) := by
      rcases ih with h | ⟨k, hk, v, hv, hle⟩
      · exact Or.inl h
      · exact Or.inr ⟨k, hk, v, hv, by push_cast; omega⟩
    have hf := findObs_sorted m.observations hs ((t + 1 : Nat) : Int) _ hc
    rw [filterLoop_curr]
    by_cases hmem : ((t + 1 : Nat) : Int) ∈ m.observations
    · obtain ⟨k, h1, h2, _⟩ := hf.1 hmem
      right
      exact ⟨k, by rw [h1], _, h2, le_refl _⟩
    · rw [hf.2 hmem]
      rcases ih with h | ⟨k, hk, v, hv, hle⟩
      · exact Or.inl h
      · exact Or.inr ⟨k, hk, v, hv, by push_cast; omega⟩

/-- Iteration `t+1` on a non-decreasing sequence: the outcome of the scan. -/
theorem filterLoop_scan (P : Prims K ρ) (m : Model K n p) (eta : Matrix (Fin N) (Fin p) K)
    (g : ρ) (hs : m.observations.Sorted (· ≤ ·)) (t : Nat) :
    (((t + 1 : Nat) : Int) ∈ m.observations →
      (filterLoop P m eta g (t + 1)).found = true ∧
      ∃ k : Nat, (filterLoop P m eta g (t + 1)).curr_obs_idx = (k : Int) ∧
        m.observations[k]? = some ((t + 1 : Nat) : Int) ∧
        ∀ j, k < j → m.observations[j]? ≠ some ((t + 1 : Nat) : Int)) ∧
    (((t + 1 : Nat) : Int) ∉ m.observations →
      (filterLoop P m eta g (t + 1)).found = false) := by
  have hc : (filterLoop P m eta g t).curr_obs_idx = -1 ∨
      ∃ k : Nat, (filterLoop P m eta g t).curr_obs_idx = (k : Int) ∧
        ∃ v, m.observations[k]? = some v ∧ v < ((t + 1 : Nat) : Int) := by
    rcases filterLoop_curr_inv P m eta g hs t with h | ⟨k, hk, v, hv, hle⟩
    · exact Or.inl h
    · exact Or.inr ⟨k, hk, v, hv, by push_cast; omega⟩
  have hf := findObs_sorted m.observations hs ((t + 1 : Nat) : Int) _ hc
  rw [filterLoop_found, filterLoop_curr]
  constructor
  · intro hmem
    obtain ⟨k, h1, h2, h3⟩ := hf.1 hmem
    rw [h1]
    exact ⟨rfl, k, rfl, h2, h3⟩
  · intro hmem
    rw [hf.2 hmem]

end Scan

/-- C2. On a non-decreasing observation sequence, at every time step `t` in `1..T` the
forward filter takes the observation branch exactly when some entry of `observations`
equals `t`; the carried index is then the last position holding `t`, which is the row the
residual `et_t` is formed from, and the scan agrees with the precomputed time-to-row map
(`some` of that position when matched, `none` when not). -/
theorem scan_agrees_with_last_row_map {K : Type} [Field K] {ρ : Type} {n p N : Nat}
    (P : Prims K ρ) (m : Model K n p) (eta : Matrix (Fin N) (Fin p) K) (g : ρ)
    (hs : m.observations.Sorted (· ≤ ·)) (t : Nat) (h1 : 1 ≤ t)
    (hT : (t : Int) ≤ maxCoeff m.observations) :
    ((filterLoop P m eta g t).found = true ↔ (t : Int) ∈ m.observations) ∧
    ((filterLoop P m eta g t).found = true →
      ∃ k : Nat, (filterLoop P m eta g t).curr_obs_idx = (k : Int) ∧
        m.observations[k]? = some (t : Int) ∧
        (∀ j, k < j → m.observations[j]? ≠ some (t : Int)) ∧
        lastRowMap m.observations (t : Int) = some k ∧
        (filterLoop P m eta g t).et_t = rowAt eta (k : Int) - (filterLoop P m eta g t).ft_t) ∧
    ((filterLoop P m eta g t).found = false → lastRowMap m.observations (t : Int) = none) := by
  obtain ⟨u, rfl⟩ : ∃ u, t = u + 1 := ⟨t - 1, by omega⟩
  have hsc := filterLoop_scan P m eta g hs u
  have hiff : (filterLoop P m eta g (u + 1)).found = true ↔
      ((u + 1 : Nat) : Int) ∈ m.observations := by
    constructor
    · intro hf
      by_contra hmem
      rw [hsc.2 hmem] at hf
      exact Bool.false_ne_true hf
    · intro hmem
      exact (hsc.1 hmem).1
  refine ⟨hiff, ?_, ?_⟩
  · intro hf
    have hmem := hiff.1 hf
    obtain ⟨_, k, hk, hk1, hk2⟩ := hsc.1 hmem
    obtain ⟨i, hi, hi1, hi2⟩ := lastRowFrom_mem m.observations 0 (fun _ => none) _ hmem
    have hik : i = k := last_index_unique _ _ _ _ hi1 hi2 hk1 hk2
    refine ⟨k, hk, hk1, hk2, ?_, ?_⟩
    · unfold lastRowMap
      rw [hi, hik, Nat.zero_add]
    · have ho := filterLoop_obs P m eta g u hf
      rw [ho.2.2.1, ho.1, hk]
  · intro hf
    have hmem : ((u + 1 : Nat) : Int) ∉ m.observations := by
      intro hmem
      rw [hiff.2 hmem] at hf
      exact Bool.false_ne_true hf.symm
    unfold lastRowMap
    rw [lastRowFrom_not_mem _ _ _ _ hmem]

/-- Witness of C2 on `observations = [1, 2, 2, 3]`: at `t = 2` the branch is taken and the
row used is row 2 (the second of the two rows at time 2), not row 1. -/
theorem scan_agrees_with_last_row_map_witness :
    tieModel.observations.Sorted (· ≤ ·) ∧ 1 ≤ 2 ∧
    ((2 : Nat) : Int) ≤ maxCoeff tieModel.observations ∧
    (filterLoop (fixedDraw ℚ 1) tieModel tieEta () 2).found = true ∧
    (filterLoop (fixedDraw ℚ 1) tieModel tieEta () 2).curr_obs_idx = 2 ∧
    lastRowMap tieModel.observations 2 = some 2 ∧
    ((filterLoop (fixedDraw ℚ 1) tieModel tieEta () 2).found = true ↔
      ((2 : Nat) : Int) ∈ tieModel.observations) :=
  ⟨by decide, by decide, by decide, by decide, by decide, by decide,
    (scan_agrees_with_last_row_map (fixedDraw ℚ 1) tieModel tieEta () (by decide) 2
      (by decide) (by decide)).1⟩

section Count

variable {K : Type} [Field K] {ρ : Type} {n p N : Nat}

theorem wrapInt32_of_range (x : Int) (hlo : -2147483648 ≤ x) (hhi : x ≤ 2147483647) :
    wrapInt32 x = x := by
  unfold wrapInt32
  omega

theorem wrapInt32_succ (x : Int) : wrapInt32 (wrapInt32 x + 1) = wrapInt32 (x + 1) := by
  unfold wrapInt32
  omega

/-- The degrees of freedom after `t` iterations, for a prior value that is an `int`: the
prior value plus the number of iterations that took the observation branch, as a 32-bit
`int`. -/
theorem filterLoop_upsilon (P : Prims K ρ) (m : Model K n p) (eta : Matrix (Fin N) (Fin p) K)
    (g : ρ) (hlo : -2147483648 ≤ m.upsilon) (hhi : m.upsilon ≤ 2147483647) (t : Nat) :
    (filterLoop P m eta g t).upsilon_t =
      wrapInt32 (m.upsilon + (((Finset.Icc 1 t).filter
        (fun u => (filterLoop P m eta g u).found = true)).card : Int)) := by
  induction t with
  | zero =>
    have h0 : (filterLoop P m eta g 0).upsilon_t = m.upsilon := rfl
    rw [h0]
    simp only [Nat.lt_one_iff, pos_of_gt, Finset.Icc_eq_empty_of_lt, Finset.filter_empty,
      Finset.card_empty, Nat.cast_zero, add_zero]
    exact (wrapInt32_of_range _ hlo hhi).symm
  | succ t ih =>
    rw [← Nat.Icc_insert_succ_right (by omega : 1 ≤ t + 1), Finset.filter_insert]
    rcases Bool.eq_false_or_eq_true (filterLoop P m eta g (t + 1)).found with h | h
    · rw [if_pos h, Finset.card_insert_of_not_mem (by simp),
        (filterLoop_obs P m eta g t h).2.2.2.2.2.2.1, ih, wrapInt32_succ]
      push_cast
      rw [add_assoc]
    · rw [if_neg (by simp [h]), (filterLoop_gap P m eta g t h).2.2.1, ih]

theorem maxCoeff_ge (l : List Int) (o : Int) (h : o ∈ l) : o ≤ maxCoeff l := by
  have key : ∀ (xs : List Int) (x : Int), x ≤ xs.foldl max x ∧ ∀ y ∈ xs, y ≤ xs.foldl max x := by
    intro xs
    induction xs with
    | nil => intro x; exact ⟨le_refl _, fun y hy => by cases hy⟩
    | cons a xs ih =>
      intro x
      rw [List.foldl_cons]
      have h1 := ih (max x a)
      refine ⟨le_trans (le_max_left _ _) h1.1, ?_⟩
      intro y hy
      rcases List.mem_cons.1 hy with e | e
      · rw [e]; exact le_trans (le_max_right _ _) h1.1
      · exact h1.2 y e
  cases l with
  | nil => cases h
  | cons x xs =>
    rcases List.mem_cons.1 h with e | e
    · rw [e]; exact (key xs x).1
    · exact (key xs x).2 o e

/-- The time steps in `1..T` that occur in `observations` are as many as the distinct
observation values in `1..T`. -/
theorem card_steps_eq_card_values (obs : List Int) :
    ((Finset.Icc 1 (maxCoeff obs).toNat).filter (fun u : Nat => (u : Int) ∈ obs)).card =
      (obs.toFinset.filter (fun o => 1 ≤ o ∧ o ≤ maxCoeff obs)).card := by
  apply Finset.card_bij (fun (u : Nat) _ => (u : Int))
  · intro u hu
    simp only [Finset.mem_filter, Finset.mem_Icc, List.mem_toFinset] at hu ⊢
    refine ⟨hu.2, by omega, ?_⟩
    omega
  · intro a _ b _ hab
    exact Int.ofNat.inj hab
  · intro o ho
    simp only [Finset.mem_filter, Finset.mem_Icc, List.mem_toFinset] at ho ⊢
    refine ⟨o.toNat, ⟨⟨by omega, by omega⟩, ?_⟩, ?_⟩
    · rw [Int.toNat_of_nonneg (by omega)]; exact ho.1
    · exact Int.toNat_of_nonneg (by omega)

end Count

/-- Counterexample to C4: the end-to-end scenario with `upsilon = INT_MAX`.  The sequence
is non-decreasing with `T = 3` and three matched observations, yet the 32-bit counter wraps:
`upsilonT = -2147483646`, not `upsilon + 3`. -/
theorem upsilonT_wraps_at_int_max :
    intMaxScalarModel.observations.Sorted (· ≤ ·) ∧
    1 ≤ maxCoeff intMaxScalarModel.observations ∧
    (intMaxScalarModel.observations.toFinset.filter
      (fun o => 1 ≤ o ∧ o ≤ maxCoeff intMaxScalarModel.observations)).card = 3 ∧
    (apply_Kalman_filter (fixedDraw ℚ 1) intMaxScalarModel scalarEta (Fit.new 1 ())).upsilonT =
      -2147483646 ∧
    (apply_Kalman_filter (fixedDraw ℚ 1) intMaxScalarModel scalarEta (Fit.new 1 ())).upsilonT ≠
      intMaxScalarModel.upsilon + 3 := by
  refine ⟨by decide, by decide, by decide, by decide, by decide⟩

/-- C4 (amended). On a non-decreasing observation sequence with maximum `T ≥ 1` and a prior
`upsilon` that is an `int`, the degrees of freedom returned by `apply_Kalman_filter` are
`upsilon` plus the number of matched observations, reduced to a 32-bit `int`; the number of
matched observations is the number of time steps in `1..T` at which the observation branch
was taken, which is the number of distinct values of `observations` lying in `1..T`.  When
the sum does not exceed `INT_MAX`, `upsilonT = upsilon + (number of matched observations)`. -/
theorem upsilonT_counts_matched {K : Type} [Field K] {ρ : Type} {n p N : Nat}
    (P : Prims K ρ) (m : Model K n p) (eta : Matrix (Fin N) (Fin p) K) (fit : Fit K ρ p)
    (hs : m.observations.Sorted (· ≤ ·)) (_hT : 1 ≤ maxCoeff m.observations)
    (hlo : -2147483648 ≤ m.upsilon) (hhi : m.upsilon ≤ 2147483647) :
    (apply_Kalman_filter P m eta fit).upsilonT =
      wrapInt32 (m.upsilon + (((Finset.Icc 1 (maxCoeff m.observations).toNat).filter
        (fun t => (filterLoop P m eta fit.rng t).found = true)).card : Int)) ∧
    ((Finset.Icc 1 (maxCoeff m.observations).toNat).filter
        (fun t => (filterLoop P m eta fit.rng t).found = true)).card =
      (m.observations.toFinset.filter
        (fun o => 1 ≤ o ∧ o ≤ maxCoeff m.observations)).card ∧
    (m.upsilon + ((m.observations.toFinset.filter
        (fun o => 1 ≤ o ∧ o ≤ maxCoeff m.observations)).card : Int) ≤ 2147483647 →
      (apply_Kalman_filter P m eta fit).upsilonT =
        m.upsilon + ((m.observations.toFinset.filter
          (fun o => 1 ≤ o ∧ o ≤ maxCoeff m.observations)).card : Int)) := by
  have hcount : ((Finset.Icc 1 (maxCoeff m.observations).toNat).filter
        (fun t => (filterLoop P m eta fit.rng t).found = true)).card =
      (m.observations.toFinset.filter
        (fun o => 1 ≤ o ∧ o ≤ maxCoeff m.observations)).card := by
    rw [← card_steps_eq_card_values]
    congr 1
    apply Finset.filter_congr
    intro u hu
    obtain ⟨v, rfl⟩ : ∃ v, u = v + 1 := ⟨u - 1, by have := (Finset.mem_Icc.1 hu).1; omega⟩
    have hsc := filterLoop_scan P m eta fit.rng hs v
    constructor
    · intro hf
      by_contra hmem
      rw [hsc.2 hmem] at hf
      exact Bool.false_ne_true hf
    · intro hmem
      exact (hsc.1 hmem).1
  have hups : (apply_Kalman_filter P m eta fit).upsilonT =
      wrapInt32 (m.upsilon + (((Finset.Icc 1 (maxCoeff m.observations).toNat).filter
        (fun t => (filterLoop P m eta fit.rng t).found = true)).card : Int)) :=
    filterLoop_upsilon P m eta fit.rng hlo hhi _
  refine ⟨hups, hcount, ?_⟩
  intro hsum
  rw [hups, hcount]
  exact wrapInt32_of_range _ (by omega) hsum

/-- Witness of the amended C4: the end-to-end scenario, `upsilon = 3` and
`observations = [1, 2, 3]`, ends with `upsilonT = 6`. -/
theorem upsilonT_counts_matched_witness :
    scalarModel.observations.Sorted (· ≤ ·) ∧ 1 ≤ maxCoeff scalarModel.observations ∧
    -2147483648 ≤ scalarModel.upsilon ∧ scalarModel.upsilon ≤ 2147483647 ∧
    (apply_Kalman_filter (fixedDraw ℚ 1) scalarModel scalarEta (Fit.new 1 ())).upsilonT = 6 := by
  have hcard : (scalarModel.observations.toFinset.filter
      (fun o => 1 ≤ o ∧ o ≤ maxCoeff scalarModel.observations)).card = 3 := by decide
  have h := upsilonT_counts_matched (fixedDraw ℚ 1) scalarModel scalarEta (Fit.new 1 ())
    (by decide) (by decide) (by decide) (by decide)
  refine ⟨by decide, by decide, by decide, by decide, ?_⟩
  rw [h.2.2 (by rw [hcard]; decide), hcard]
  decide

section Algebra

variable {K : Type} [Field K]

theorem divScalar_eq_smul {a b : Nat} (A : Matrix (Fin a) (Fin b) K) (q : K) :
    divScalar A q = q⁻¹ • A := by
  ext i j
  simp [divScalar, div_eq_inv_mul]

theorem rowAt_zero {N p : Nat} (eta : Matrix (Fin (N + 1)) (Fin p) K) :
    rowAt eta 0 = Matrix.of fun (_ : Fin 1) j => eta 0 j := by
  ext i j
  simp [rowAt]

theorem divScalar_mul {a b c : Nat} (A : Matrix (Fin a) (Fin b) K) (B : Matrix (Fin b) (Fin c) K)
    (q : K) : divScalar A q * B = divScalar (A * B) q := by
  simp only [divScalar_eq_smul, Matrix.smul_mul]

/-- The correction `q_t * S_t * S_tᵀ` with `S_t = A / q_t` is `A Aᵀ / q_t`. -/
theorem gain_outer {a : Nat} (A : Matrix (Fin a) (Fin 1) K) (q : K) (hq : q ≠ 0) :
    (q • divScalar A q) * (divScalar A q)ᵀ = divScalar (A * Aᵀ) q := by
  simp only [divScalar_eq_smul, Matrix.smul_mul, Matrix.mul_smul, Matrix.transpose_smul,
    smul_smul]
  rw [mul_inv_cancel₀ hq, mul_one]

end Algebra

/-- C3. At every time step `t` in `1..T` at which no observation is matched, the archive
entry written by `apply_Kalman_filter` is the pure prediction: `M_t = G*M_{t-1}`,
`C_t = R_t = G*C_{t-1}*Gᵀ + W*W_scale` (column `t-1` of `Cs` equals column `t-1` of `Rs`),
and the inverse-Wishart accumulator `(upsilon_t, Xi_t)` is the one before the step. -/
theorem gap_step_is_pure_prediction {K : Type} [Field K] {ρ : Type} {n p N : Nat}
    (P : Prims K ρ) (m : Model K n p) (eta : Matrix (Fin N) (Fin p) K) (fit : Fit K ρ p)
    (t : Nat) (h1 : 1 ≤ t) (hT : (t : Int) ≤ maxCoeff m.observations)
    (hgap : (filterLoop P m eta fit.rng t).found = false) :
    unpack_sample (apply_Kalman_filter P m eta fit).Ms n p (t - 1) =
      m.G * (filterLoop P m eta fit.rng (t - 1)).M_t ∧
    unpack_sample (apply_Kalman_filter P m eta fit).Rs n n (t - 1) =
      m.G * (filterLoop P m eta fit.rng (t - 1)).C_t * m.Gᵀ + m.W_scale • m.W ∧
    unpack_sample (apply_Kalman_filter P m eta fit).Cs n n (t - 1) =
      unpack_sample (apply_Kalman_filter P m eta fit).Rs n n (t - 1) ∧
    (filterLoop P m eta fit.rng t).M_t = m.G * (filterLoop P m eta fit.rng (t - 1)).M_t ∧
    (filterLoop P m eta fit.rng t).R_t =
      m.G * (filterLoop P m eta fit.rng (t - 1)).C_t * m.Gᵀ + m.W_scale • m.W ∧
    (filterLoop P m eta fit.rng t).C_t = (filterLoop P m eta fit.rng t).R_t ∧
    (filterLoop P m eta fit.rng t).upsilon_t = (filterLoop P m eta fit.rng (t - 1)).upsilon_t ∧
    (filterLoop P m eta fit.rng t).Xi_t = (filterLoop P m eta fit.rng (t - 1)).Xi_t := by
  obtain ⟨u, rfl⟩ : ∃ u, t = u + 1 := ⟨t - 1, by omega⟩
  have hlt : u < (maxCoeff m.observations).toNat := by omega
  have ha := filterLoop_archive P m eta fit.rng _ u hlt
  have hg := filterLoop_gap P m eta fit.rng u hgap
  have hR := filterLoop_R P m eta fit.rng u
  simp only [Nat.add_sub_cancel]
  refine ⟨?_, ?_, ?_, hg.1, hR, ?_, hg.2.2.1, hg.2.2.2⟩
  · exact ha.1.trans hg.1
  · exact ha.2.1.trans hR
  · exact ha.2.2.1.trans ((hg.2.1.trans hR.symm).trans ha.2.1.symm)
  · exact hg.2.1.trans hR.symm

/-- Witness of C3: `observations = [1, 3, 5]`, `T = 5`; steps `t = 2` and `t = 4` match no
observation and their archive columns hold the prediction, `Cs` equal to `Rs`. -/
theorem gap_step_is_pure_prediction_witness :
    maxCoeff gapModel.observations = 5 ∧
    (filterLoop (fixedDraw ℚ 1) gapModel scalarEta () 2).found = false ∧
    (filterLoop (fixedDraw ℚ 1) gapModel scalarEta () 4).found = false ∧
    unpack_sample (apply_Kalman_filter (fixedDraw ℚ 1) gapModel scalarEta (Fit.new 1 ())).Cs 1 1 1 =
      unpack_sample (apply_Kalman_filter (fixedDraw ℚ 1) gapModel scalarEta (Fit.new 1 ())).Rs 1 1 1 ∧
    unpack_sample (apply_Kalman_filter (fixedDraw ℚ 1) gapModel scalarEta (Fit.new 1 ())).Cs 1 1 3 =
      unpack_sample (apply_Kalman_filter (fixedDraw ℚ 1) gapModel scalarEta (Fit.new 1 ())).Rs 1 1 3 :=
  ⟨by decide, by decide, by decide,
    (gap_step_is_pure_prediction (fixedDraw ℚ 1) gapModel scalarEta (Fit.new 1 ()) 2
      (by decide) (by decide) (by decide)).2.2.1,
    (gap_step_is_pure_prediction (fixedDraw ℚ 1) gapModel scalarEta (Fit.new 1 ()) 4
      (by decide) (by decide) (by decide)).2.2.1⟩

/-- C1 (amended). For `observations = [1]` (so `T = 1`, no gaps), nonzero forecast
variance `q = gamma_scale + Fᵀ R F`, where `R = G (C0*W_scale) Gᵀ + W*W_scale`, and a prior
`upsilon` that is an `int` below `INT_MAX`, the filter archives the single-step conjugate
update `R_1 = R`, `M_1 = G M0 + R F e / q`, `C_1 = R - (R F)(R F)ᵀ / q` and returns
`upsilonT = upsilon + 1`, `XiT = Xi + eᵀ e / q`, with `e = eta.row(0) - Fᵀ G M0`. -/
theorem single_step_conjugate_update {K : Type} [Field K] {ρ : Type} {n p N : Nat}
    (P : Prims K ρ) (m : Model K n p) (eta : Matrix (Fin (N + 1)) (Fin p) K) (fit : Fit K ρ p)
    (hobs : m.observations = [1])
    (hq : m.gamma_scale +
      (m.Fᵀ * (m.G * (m.W_scale • m.C0) * m.Gᵀ + m.W_scale • m.W) * m.F) 0 0 ≠ 0)
    (hlo : -2147483648 ≤ m.upsilon) (hhi : m.upsilon < 2147483647) :
    (apply_Kalman_filter P m eta fit).T = 1 ∧
    unpack_sample (apply_Kalman_filter P m eta fit).Rs n n 0 =
      m.G * (m.W_scale • m.C0) * m.Gᵀ + m.W_scale • m.W ∧
    unpack_sample (apply_Kalman_filter P m eta fit).Ms n p 0 =
      m.G * m.M0 +
        divScalar ((m.G * (m.W_scale • m.C0) * m.Gᵀ + m.W_scale • m.W) * m.F *
            ((Matrix.of fun (_ : Fin 1) j => eta 0 j) - m.Fᵀ * (m.G * m.M0)))
          (m.gamma_scale +
            (m.Fᵀ * (m.G * (m.W_scale • m.C0) * m.Gᵀ + m.W_scale • m.W) * m.F) 0 0) ∧
    unpack_sample (apply_Kalman_filter P m eta fit).Cs n n 0 =
      (m.G * (m.W_scale • m.C0) * m.Gᵀ + m.W_scale • m.W) -
        divScalar (((m.G * (m.W_scale • m.C0) * m.Gᵀ + m.W_scale • m.W) * m.F) *
            ((m.G * (m.W_scale • m.C0) * m.Gᵀ + m.W_scale • m.W) * m.F)ᵀ)
          (m.gamma_scale +
            (m.Fᵀ * (m.G * (m.W_scale • m.C0) * m.Gᵀ + m.W_scale • m.W) * m.F) 0 0) ∧
    (apply_Kalman_filter P m eta fit).upsilonT = m.upsilon + 1 ∧
    (apply_Kalman_filter P m eta fit).XiT =
      m.Xi + divScalar
        (((Matrix.of fun (_ : Fin 1) j => eta 0 j) - m.Fᵀ * (m.G * m.M0))ᵀ *
          ((Matrix.of fun (_ : Fin 1) j => eta 0 j) - m.Fᵀ * (m.G * m.M0)))
        (m.gamma_scale +
          (m.Fᵀ * (m.G * (m.W_scale • m.C0) * m.Gᵀ + m.W_scale • m.W) * m.F) 0 0) := by
  have hq2 : forecastVar m (priorCov m (m.W_scale • m.C0)) ≠ 0 := hq
  have hTn : (maxCoeff m.observations).toNat = 1 := by rw [hobs]; rfl
  have hf : (filterLoop P m eta fit.rng 1).found = true := by
    rw [filterLoop_found, hobs]; rfl
  have hc : (filterLoop P m eta fit.rng 1).curr_obs_idx = 0 := by
    rw [filterLoop_curr, hobs]; rfl
  have ho := filterLoop_obs P m eta fit.rng 0 hf
  have hR := filterLoop_R P m eta fit.rng 0
  have ha := filterLoop_archive P m eta fit.rng 1 0 (by omega)
  have hM0 : (filterLoop P m eta fit.rng 0).M_t = m.M0 := rfl
  have hC0 : (filterLoop P m eta fit.rng 0).C_t = m.W_scale • m.C0 := rfl
  simp only [Nat.zero_add] at ho hR ha hf hc
  rw [hc, hM0, hC0, rowAt_zero] at ho
  rw [hC0] at hR
  obtain ⟨_, hq1, he, hS, hM, hC, hu, hX⟩ := ho
  have hT1 : (apply_Kalman_filter P m eta fit).T = 1 := by
    show maxCoeff m.observations = 1
    rw [hobs]; rfl
  refine ⟨hT1, ?_, ?_, ?_, ?_, ?_⟩
  · show unpack_sample (filterLoop P m eta fit.rng (maxCoeff m.observations).toNat).Rs n n 0 = _
    rw [hTn, ha.2.1, hR]; rfl
  · show unpack_sample (filterLoop P m eta fit.rng (maxCoeff m.observations).toNat).Ms n p 0 = _
    rw [hTn, ha.1, hM, hS, he, divScalar_mul]; rfl
  · show unpack_sample (filterLoop P m eta fit.rng (maxCoeff m.observations).toNat).Cs n n 0 = _
    rw [hTn, ha.2.2.1, hC, hS, hq1, gain_outer _ _ hq2]; rfl
  · show (filterLoop P m eta fit.rng (maxCoeff m.observations).toNat).upsilon_t = _
    rw [hTn, hu]
    exact wrapInt32_of_range _ (by
      have h0 : (filterLoop P m eta fit.rng 0).upsilon_t = m.upsilon := rfl
      rw [h0]; omega) (by
      have h0 : (filterLoop P m eta fit.rng 0).upsilon_t = m.upsilon := rfl
      rw [h0]; omega)
  · show (filterLoop P m eta fit.rng (maxCoeff m.observations).toNat).Xi_t = _
    rw [hTn, hX, he, hq1]; rfl

theorem oneStep_q : oneStepModel.gamma_scale +
      (oneStepModel.Fᵀ * (oneStepModel.G * (oneStepModel.W_scale • oneStepModel.C0) *
        oneStepModel.Gᵀ + oneStepModel.W_scale • oneStepModel.W) * oneStepModel.F) 0 0 = 3 := by
  simp [oneStepModel, scalarModel, Matrix.mul_apply, Matrix.vecHead]
  norm_num

/-- Counterexample to C1: the scalar model observed once with `upsilon = INT_MAX`.  The
hypotheses of the claim hold (`observations = [1]`, `q = 3`), and the 32-bit counter
wraps: `upsilonT = INT_MIN = -2147483648`, not `upsilon + 1`. -/
theorem single_step_upsilon_wraps_at_int_max :
    intMaxOneStepModel.observations = [1] ∧
    intMaxOneStepModel.gamma_scale +
      (intMaxOneStepModel.Fᵀ * (intMaxOneStepModel.G *
        (intMaxOneStepModel.W_scale • intMaxOneStepModel.C0) * intMaxOneStepModel.Gᵀ +
        intMaxOneStepModel.W_scale • intMaxOneStepModel.W) * intMaxOneStepModel.F) 0 0 = 3 ∧
    (apply_Kalman_filter (fixedDraw ℚ 1) intMaxOneStepModel oneStepEta (Fit.new 1 ())).T = 1 ∧
    (apply_Kalman_filter (fixedDraw ℚ 1) intMaxOneStepModel oneStepEta
      (Fit.new 1 ())).upsilonT = -2147483648 ∧
    (apply_Kalman_filter (fixedDraw ℚ 1) intMaxOneStepModel oneStepEta
      (Fit.new 1 ())).upsilonT ≠ intMaxOneStepModel.upsilon + 1 := by
  refine ⟨rfl, oneStep_q, rfl, by decide, by decide⟩

/-- Witness of the amended C1 on the scalar model observed once: the forecast variance is
`3`, `upsilon = 3` is below `INT_MAX`, and the run ends with `T = 1` and
`upsilonT = 3 + 1`. -/
theorem single_step_conjugate_update_witness :
    oneStepModel.observations = [1] ∧
    oneStepModel.gamma_scale +
      (oneStepModel.Fᵀ * (oneStepModel.G * (oneStepModel.W_scale • oneStepModel.C0) *
        oneStepModel.Gᵀ + oneStepModel.W_scale • oneStepModel.W) * oneStepModel.F) 0 0 ≠ 0 ∧
    -2147483648 ≤ oneStepModel.upsilon ∧ oneStepModel.upsilon < 2147483647 ∧
    (apply_Kalman_filter (fixedDraw ℚ 1) oneStepModel oneStepEta (Fit.new 1 ())).T = 1 ∧
    (apply_Kalman_filter (fixedDraw ℚ 1) oneStepModel oneStepEta (Fit.new 1 ())).upsilonT =
      3 + 1 :=
  have hq : oneStepModel.gamma_scale +
      (oneStepModel.Fᵀ * (oneStepModel.G * (oneStepModel.W_scale • oneStepModel.C0) *
        oneStepModel.Gᵀ + oneStepModel.W_scale • oneStepModel.W) * oneStepModel.F) 0 0 ≠ 0 := by
    rw [oneStep_q]; norm_num
  have h := single_step_conjugate_update (fixedDraw ℚ 1) oneStepModel oneStepEta (Fit.new 1 ())
    rfl hq (by decide) (by decide)
  ⟨rfl, hq, by decide, by decide, h.1, h.2.2.2.2.1⟩

section Order

variable {K : Type} [LinearOrderedField K]

/-- The quadratic form of an outer product `v vᵀ` is a square. -/
theorem quad_outer {a : Nat} (v : Matrix (Fin a) (Fin 1) K) (x : Fin a → K) :
    x ⬝ᵥ (v * vᵀ).mulVec x = (∑ i, x i * v i 0) ^ 2 := by
  simp only [dotProduct, mulVec, Matrix.mul_apply, Matrix.transpose_apply,
    Fin.sum_univ_one, Fin.isValue]
  rw [sq, Finset.sum_mul_sum]
  apply Finset.sum_congr rfl
  intro i _
  rw [Finset.mul_sum]
  apply Finset.sum_congr rfl
  intro j _
  ring

theorem isPSD_outer {a : Nat} (v : Matrix (Fin a) (Fin 1) K) : IsPSD (v * vᵀ) := by
  refine ⟨by rw [Matrix.transpose_mul, Matrix.transpose_transpose], ?_⟩
  intro x
  rw [quad_outer]
  exact sq_nonneg _

theorem isPSD_smul {a : Nat} (A : Matrix (Fin a) (Fin a) K) (c : K) (hc : 0 ≤ c)
    (hA : IsPSD A) : IsPSD (c • A) := by
  refine ⟨by rw [Matrix.transpose_smul, hA.1], ?_⟩
  intro x
  rw [Matrix.smul_mulVec_assoc, dotProduct_smul, smul_eq_mul]
  exact mul_nonneg hc (hA.2 x)

theorem isPD_add_isPSD {a : Nat} (A B : Matrix (Fin a) (Fin a) K) (hA : IsPD A)
    (hB : IsPSD B) : IsPD (A + B) := by
  refine ⟨by rw [Matrix.transpose_add, hA.1, hB.1], ?_⟩
  intro x hx
  rw [Matrix.add_mulVec, dotProduct_add]
  exact add_pos_of_pos_of_nonneg (hA.2 x hx) (hB.2 x)

/-- The rank-one term `eᵀ e / q` added to `Xi_t` (line 123) is positive semi-definite for
`q > 0`. -/
theorem isPSD_residual_term {b : Nat} (e : Matrix (Fin 1) (Fin b) K) (q : K) (hq : 0 < q) :
    IsPSD (divScalar (eᵀ * e) q) := by
  rw [divScalar_eq_smul]
  apply isPSD_smul _ _ (le_of_lt (inv_pos.2 hq))
  have := isPSD_outer (eᵀ)
  rwa [Matrix.transpose_transpose] at this

/-- The correction `q_t * S_t * S_tᵀ` subtracted from `R_t` (line 121) is positive
semi-definite for `q_t ≥ 0`. -/
theorem isPSD_gain_term {a : Nat} (S : Matrix (Fin a) (Fin 1) K) (q : K) (hq : 0 ≤ q) :
    IsPSD ((q • S) * Sᵀ) := by
  rw [Matrix.smul_mul]
  exact isPSD_smul _ _ hq (isPSD_outer S)

end Order

section ScalarRun

variable {ρ : Type}

theorem scalar_priorCov (c : ℚ) : priorCov scalarModel !![c] = !![c + 1] := by
  ext i j
  fin_cases i; fin_cases j
  simp [priorCov, scalarModel, Matrix.mul_apply, Matrix.vecHead]

theorem scalar_forecastVar (r : ℚ) : forecastVar scalarModel !![r] = 1 + r := by
  simp [forecastVar, scalarModel, Matrix.mul_apply, Matrix.vecHead]

theorem scalar_posterior (r q : ℚ) (hq : q ≠ 0) :
    (!![r] : Matrix (Fin 1) (Fin 1) ℚ) -
      (q • divScalar (!![r] * scalarModel.F) q) * (divScalar (!![r] * scalarModel.F) q)ᵀ =
      !![r - r * r / q] := by
  rw [gain_outer _ _ hq]
  ext i j
  fin_cases i; fin_cases j
  simp [divScalar, scalarModel, Matrix.mul_apply, Matrix.vecHead]

/-- One matched iteration of the scalar model, from running covariance `c`. -/
theorem scalar_step (P : Prims ℚ ρ) (g : ρ) (t : Nat) (c : ℚ)
    (hf : (filterLoop P scalarModel scalarEta g (t + 1)).found = true)
    (hC : (filterLoop P scalarModel scalarEta g t).C_t = !![c]) (hq : 1 + (c + 1) ≠ 0) :
    (filterLoop P scalarModel scalarEta g (t + 1)).q_t = 1 + (c + 1) ∧
    (filterLoop P scalarModel scalarEta g (t + 1)).R_t = !![c + 1] ∧
    (filterLoop P scalarModel scalarEta g (t + 1)).C_t =
      !![(c + 1) - (c + 1) * (c + 1) / (1 + (c + 1))] := by
  have o := filterLoop_obs P scalarModel scalarEta g t hf
  refine ⟨?_, ?_, ?_⟩
  · rw [o.2.1, hC, scalar_priorCov, scalar_forecastVar]
  · rw [filterLoop_R, hC, scalar_priorCov]
  · rw [o.2.2.2.2.2.1, o.2.2.2.1, o.2.1, hC, scalar_priorCov, scalar_forecastVar,
      scalar_posterior _ _ hq]

/-- The forecast and posterior covariances of the end-to-end scenario, whatever the draws. -/
theorem scalar_run (P : Prims ℚ ρ) (g : ρ) :
    ((filterLoop P scalarModel scalarEta g 1).found = true ∧
      (filterLoop P scalarModel scalarEta g 1).q_t = 3 ∧
      (filterLoop P scalarModel scalarEta g 1).R_t = !![2] ∧
      (filterLoop P scalarModel scalarEta g 1).C_t = !![2/3]) ∧
    ((filterLoop P scalarModel scalarEta g 2).found = true ∧
      (filterLoop P scalarModel scalarEta g 2).q_t = 8/3 ∧
      (filterLoop P scalarModel scalarEta g 2).R_t = !![5/3] ∧
      (filterLoop P scalarModel scalarEta g 2).C_t = !![5/8]) ∧
    ((filterLoop P scalarModel scalarEta g 3).found = true ∧
      (filterLoop P scalarModel scalarEta g 3).q_t = 21/8 ∧
      (filterLoop P scalarModel scalarEta g 3).R_t = !![13/8] ∧
      (filterLoop P scalarModel scalarEta g 3).C_t = !![13/21]) := by
  have hC0 : (filterLoop P scalarModel scalarEta g 0).C_t = !![1] := by
    ext i j
    fin_cases i; fin_cases j
    simp [filterLoop, filterInit, scalarModel]
  have hf1 : (filterLoop P scalarModel scalarEta g 1).found = true := rfl
  have hf2 : (filterLoop P scalarModel scalarEta g 2).found = true := rfl
  have hf3 : (filterLoop P scalarModel scalarEta g 3).found = true := rfl
  have s1 := scalar_step P g 0 1 hf1 hC0 (by norm_num)
  have hC1 : (filterLoop P scalarModel scalarEta g 1).C_t = !![2/3] := by
    rw [s1.2.2]; norm_num
  have s2 := scalar_step P g 1 (2/3) hf2 hC1 (by norm_num)
  have hC2 : (filterLoop P scalarModel scalarEta g 2).C_t = !![5/8] := by
    rw [s2.2.2]; norm_num
  have s3 := scalar_step P g 2 (5/8) hf3 hC2 (by norm_num)
  refine ⟨⟨hf1, ?_, ?_, hC1⟩, ⟨hf2, ?_, ?_, hC2⟩, ⟨hf3, ?_, ?_, ?_⟩⟩
  · rw [s1.1]; norm_num
  · rw [s1.2.1]; norm_num
  · rw [s2.1]; norm_num
  · rw [s2.2.1]; norm_num
  · rw [s3.1]; norm_num
  · rw [s3.2.1]; norm_num
  · rw [s3.2.2]; norm_num

end ScalarRun

/-- C5. At every time step `t` in `1..T` where an observation is matched and `q_t > 0`,
the filtered covariance shrinks relative to the forecast covariance:
`R_t - C_t = q_t * S_t * S_tᵀ` is symmetric positive semi-definite, for the running
matrices and for the archived columns.  In the scalar end-to-end scenario the pairs
`(R_t, C_t)` are `(2, 2/3)`, `(5/3, 5/8)`, `(13/8, 13/21)`, a strict shrink at all three
steps. -/
theorem observed_step_shrinks_covariance {K : Type} [LinearOrderedField K] {ρ : Type}
    {n p N : Nat} (P : Prims K ρ) (m : Model K n p) (eta : Matrix (Fin N) (Fin p) K)
    (fit : Fit K ρ p) (t : Nat) (h1 : 1 ≤ t) (hT : (t : Int) ≤ maxCoeff m.observations)
    (hf : (filterLoop P m eta fit.rng t).found = true)
    (hq : 0 < (filterLoop P m eta fit.rng t).q_t) :
    ((filterLoop P m eta fit.rng t).R_t - (filterLoop P m eta fit.rng t).C_t =
      ((filterLoop P m eta fit.rng t).q_t • (filterLoop P m eta fit.rng t).S_t) *
        ((filterLoop P m eta fit.rng t).S_t)ᵀ) ∧
    IsPSD ((filterLoop P m eta fit.rng t).R_t - (filterLoop P m eta fit.rng t).C_t) ∧
    IsPSD (unpack_sample (apply_Kalman_filter P m eta fit).Rs n n (t - 1) -
      unpack_sample (apply_Kalman_filter P m eta fit).Cs n n (t - 1)) ∧
    (∀ (Q : Prims ℚ ρ) (g : ρ),
      ((filterLoop Q scalarModel scalarEta g 1).R_t = !![2] ∧
        (filterLoop Q scalarModel scalarEta g 1).C_t = !![2/3] ∧
        (filterLoop Q scalarModel scalarEta g 1).C_t 0 0 <
          (filterLoop Q scalarModel scalarEta g 1).R_t 0 0) ∧
      ((filterLoop Q scalarModel scalarEta g 2).R_t = !![5/3] ∧
        (filterLoop Q scalarModel scalarEta g 2).C_t = !![5/8] ∧
        (filterLoop Q scalarModel scalarEta g 2).C_t 0 0 <
          (filterLoop Q scalarModel scalarEta g 2).R_t 0 0) ∧
      ((filterLoop Q scalarModel scalarEta g 3).R_t = !![13/8] ∧
        (filterLoop Q scalarModel scalarEta g 3).C_t = !![13/21] ∧
        (filterLoop Q scalarModel scalarEta g 3).C_t 0 0 <
          (filterLoop Q scalarModel scalarEta g 3).R_t 0 0)) := by
  obtain ⟨u, rfl⟩ : ∃ u, t = u + 1 := ⟨t - 1, by omega⟩
  have hlt : u < (maxCoeff m.observations).toNat := by omega
  have ha := filterLoop_archive P m eta fit.rng _ u hlt
  have ho := filterLoop_obs P m eta fit.rng u hf
  have hR := filterLoop_R P m eta fit.rng u
  have hdiff : (filterLoop P m eta fit.rng (u + 1)).R_t -
      (filterLoop P m eta fit.rng (u + 1)).C_t =
      ((filterLoop P m eta fit.rng (u + 1)).q_t • (filterLoop P m eta fit.rng (u + 1)).S_t) *
        ((filterLoop P m eta fit.rng (u + 1)).S_t)ᵀ := by
    rw [ho.2.2.2.2.2.1, hR, sub_sub_cancel]
  have hpsd : IsPSD ((filterLoop P m eta fit.rng (u + 1)).R_t -
      (filterLoop P m eta fit.rng (u + 1)).C_t) := by
    rw [hdiff]
    exact isPSD_gain_term _ _ (le_of_lt hq)
  refine ⟨hdiff, hpsd, ?_, ?_⟩
  · simp only [Nat.add_sub_cancel]
    show IsPSD (unpack_sample (filterLoop P m eta fit.rng _).Rs n n u -
      unpack_sample (filterLoop P m eta fit.rng _).Cs n n u)
    rw [ha.2.1, ha.2.2.1]
    exact hpsd
  · intro Q g
    have hr := scalar_run Q g
    refine ⟨⟨hr.1.2.2.1, hr.1.2.2.2, ?_⟩, ⟨hr.2.1.2.2.1, hr.2.1.2.2.2, ?_⟩,
      ⟨hr.2.2.2.2.1, hr.2.2.2.2.2, ?_⟩⟩
    · rw [hr.1.2.2.1, hr.1.2.2.2]; norm_num
    · rw [hr.2.1.2.2.1, hr.2.1.2.2.2]; norm_num
    · rw [hr.2.2.2.2.1, hr.2.2.2.2.2]; norm_num

/-- Witness of C5: step `t = 2` of the end-to-end scenario is matched with `q_2 = 8/3 > 0`,
and `R_2 - C_2` is positive semi-definite. -/
theorem observed_step_shrinks_covariance_witness :
    1 ≤ 2 ∧ ((2 : Nat) : Int) ≤ maxCoeff scalarModel.observations ∧
    (filterLoop (fixedDraw ℚ 1) scalarModel scalarEta () 2).found = true ∧
    0 < (filterLoop (fixedDraw ℚ 1) scalarModel scalarEta () 2).q_t ∧
    IsPSD ((filterLoop (fixedDraw ℚ 1) scalarModel scalarEta () 2).R_t -
      (filterLoop (fixedDraw ℚ 1) scalarModel scalarEta () 2).C_t) :=
  have hq : 0 < (filterLoop (fixedDraw ℚ 1) scalarModel scalarEta () 2).q_t := by
    rw [(scalar_run (fixedDraw ℚ 1) ()).2.1.2.1]; norm_num
  ⟨by decide, by decide, by decide, hq,
    (observed_step_shrinks_covariance (fixedDraw ℚ 1) scalarModel scalarEta (Fit.new 1 ()) 2
      (by decide) (by decide) (by decide) hq).2.1⟩

section XiInvariant

variable {K : Type} [LinearOrderedField K] {ρ : Type} {n p N : Nat}

/-- The scale `Xi_t` stays symmetric positive definite along the loop as long as every
matched step so far had a positive forecast variance. -/
theorem filterLoop_Xi_isPD (P : Prims K ρ) (m : Model K n p) (eta : Matrix (Fin N) (Fin p) K)
    (g : ρ) (hXi : IsPD m.Xi) (t : Nat)
    (hq : ∀ u, 1 ≤ u → u ≤ t → (filterLoop P m eta g u).found = true →
      0 < (filterLoop P m eta g u).q_t) :
    IsPD (filterLoop P m eta g t).Xi_t := by
  induction t with
  | zero => exact hXi
  | succ t ih =>
    have ih1 := ih (fun u h1 h2 hf => hq u h1 (by omega) hf)
    rcases Bool.eq_false_or_eq_true (filterLoop P m eta g (t + 1)).found with h | h
    · rw [(filterLoop_obs P m eta g t h).2.2.2.2.2.2.2]
      exact isPD_add_isPSD _ _ ih1
        (isPSD_residual_term _ _ (hq (t + 1) (by omega) (le_refl _) h))
    · rw [(filterLoop_gap P m eta g t h).2.2.2]
      exact ih1

end XiInvariant

/-- C6. If the prior scale `Xi` is symmetric positive definite and `q_t > 0` at every
matched step, the posterior scale `XiT` returned by `apply_Kalman_filter` is symmetric
positive definite. -/
theorem XiT_positive_definite {K : Type} [LinearOrderedField K] {ρ : Type} {n p N : Nat}
    (P : Prims K ρ) (m : Model K n p) (eta : Matrix (Fin N) (Fin p) K) (fit : Fit K ρ p)
    (hXi : IsPD m.Xi)
    (hq : ∀ t : Nat, 1 ≤ t → (t : Int) ≤ maxCoeff m.observations →
      (filterLoop P m eta fit.rng t).found = true → 0 < (filterLoop P m eta fit.rng t).q_t) :
    IsPD (apply_Kalman_filter P m eta fit).XiT :=
  filterLoop_Xi_isPD P m eta fit.rng hXi _ (fun u h1 h2 hf => hq u h1 (by omega) hf)

theorem scalar_Xi_isPD : IsPD scalarModel.Xi := by
  refine ⟨?_, ?_⟩
  · ext i j
    fin_cases i; fin_cases j
    rfl
  · intro x hx
    have hx0 : x 0 ≠ 0 := by
      intro h0
      apply hx
      ext i
      fin_cases i
      exact h0
    have : x ⬝ᵥ scalarModel.Xi.mulVec x = x 0 * x 0 := by
      simp [scalarModel, dotProduct, mulVec, Matrix.vecHead]
    rw [this]
    exact mul_self_pos.2 hx0

/-- Witness of C6: the end-to-end scenario has `Xi = [1]` and positive forecast variances
`3`, `8/3`, `21/8`, so its `XiT` is positive definite. -/
theorem XiT_positive_definite_witness :
    IsPD scalarModel.Xi ∧
    (∀ t : Nat, 1 ≤ t → (t : Int) ≤ maxCoeff scalarModel.observations →
      (filterLoop (fixedDraw ℚ 1) scalarModel scalarEta () t).found = true →
      0 < (filterLoop (fixedDraw ℚ 1) scalarModel scalarEta () t).q_t) ∧
    IsPD (apply_Kalman_filter (fixedDraw ℚ 1) scalarModel scalarEta (Fit.new 1 ())).XiT :=
  have hq : ∀ t : Nat, 1 ≤ t → (t : Int) ≤ maxCoeff scalarModel.observations →
      (filterLoop (fixedDraw ℚ 1) scalarModel scalarEta () t).found = true →
      0 < (filterLoop (fixedDraw ℚ 1) scalarModel scalarEta () t).q_t := by
    intro t h1 h3 _
    have hm : maxCoeff scalarModel.observations = 3 := by decide
    rw [hm] at h3
    have hr := scalar_run (fixedDraw ℚ 1) ()
    have h3n : t ≤ 3 := by omega
    interval_cases t
    · rw [hr.1.2.1]; norm_num
    · rw [hr.2.1.2.1]; norm_num
    · rw [hr.2.2.2.1]; norm_num
  ⟨scalar_Xi_isPD, hq,
    XiT_positive_definite (fixedDraw ℚ 1) scalarModel scalarEta (Fit.new 1 ()) scalar_Xi_isPD hq⟩

section Smoother

variable {K : Type} [Field K] {ρ : Type} {n : Nat}

/-- With `system_dim = D - 1` a backward step is defined, and it writes the new draw into
column `t-1` of both `Thetas_smoothed` and `Ms_star`. -/
theorem smootherStep_square (P : Prims K ρ) (m : Model K n n) (fit : Fit K ρ n) (t : Nat)
    (s : SmootherState K ρ n n) :
    ∃ s1 : SmootherState K ρ n n, smootherStep P m fit t s = some s1 ∧
      s1.Ms_star = packColumn s.Ms_star (t - 1) s1.smoothed_Theta_t ∧
      s1.Thetas_smoothed = packColumn s.Thetas_smoothed (t - 1) s1.smoothed_Theta_t := by
  unfold smootherStep
  simp only [noiseTimesLVt, dif_pos]
  exact ⟨_, rfl, rfl, rfl⟩

/-- The backward loop started at counter `t ≤ c` leaves column `c` of `Thetas_smoothed` and
`Ms_star` as the terminal step wrote it. -/
theorem smootherLoop_keeps_column (P : Prims K ρ) (m : Model K n n) (fit : Fit K ρ n)
    (c t : Nat) (htc : t ≤ c) (s : SmootherState K ρ n n) :
    ∃ s1 : SmootherState K ρ n n, smootherLoop P m fit t s = some s1 ∧
      unpack_sample s1.Ms_star n n c = unpack_sample s.Ms_star n n c ∧
      unpack_sample s1.Thetas_smoothed n n c = unpack_sample s.Thetas_smoothed n n c := by
  induction t generalizing s with
  | zero => exact ⟨s, rfl, rfl, rfl⟩
  | succ t ih =>
    obtain ⟨s1, h1, h2, h3⟩ := smootherStep_square P m fit (t + 1) s
    obtain ⟨s2, k1, k2, k3⟩ := ih (by omega) s1
    refine ⟨s2, ?_, ?_, ?_⟩
    · rw [smootherLoop, h1]; exact k1
    · rw [k2, h2]; exact unpack_packColumn_ne _ _ _ _ (by omega)
    · rw [k3, h3]; exact unpack_packColumn_ne _ _ _ _ (by omega)

/-- The terminal step is defined for `system_dim = D - 1` and stores its draw in column
`T-1` of both buffers. -/
theorem smootherTerminal_square (P : Prims K ρ) (m : Model K n n) (fit : Fit K ρ n) :
    ∃ s0 : SmootherState K ρ n n, smootherTerminal P m fit = some s0 ∧
      unpack_sample s0.Ms_star n n (fit.T - 1).toNat =
        (P.rMatNormalCholesky n n (unpack_sample fit.Ms n n (fit.T - 1).toNat)
          (P.llt n (unpack_sample fit.Cs n n (fit.T - 1).toNat))
          ((P.rInvWishRevCholesky n fit.upsilonT fit.XiT fit.rng).1)ᵀ
          (P.rInvWishRevCholesky n fit.upsilonT fit.XiT fit.rng).2).1 ∧
      unpack_sample s0.Thetas_smoothed n n (fit.T - 1).toNat =
        unpack_sample s0.Ms_star n n (fit.T - 1).toNat := by
  unfold smootherTerminal
  simp only [noiseTimesLVt, dif_pos]
  exact ⟨_, rfl, unpack_packColumn _ _ _, rfl⟩

/-- A filtered fit with `system_dim = D - 1`: the smoother returns, and column `T-1` of
`Ms_star` and of `Thetas_smoothed` is the terminal draw. -/
theorem smoother_terminal_column (P : Prims K ρ) (m : Model K n n) (fit : Fit K ρ n)
    (hf : fit.filtered = true) :
    ∃ r : Fit K ρ n, apply_simulation_smoother P m fit = some r ∧
      r.smoothed = true ∧
      unpack_sample r.Ms_star n n (fit.T - 1).toNat =
        (P.rMatNormalCholesky n n (unpack_sample fit.Ms n n (fit.T - 1).toNat)
          (P.llt n (unpack_sample fit.Cs n n (fit.T - 1).toNat))
          ((P.rInvWishRevCholesky n fit.upsilonT fit.XiT fit.rng).1)ᵀ
          (P.rInvWishRevCholesky n fit.upsilonT fit.XiT fit.rng).2).1 ∧
      unpack_sample r.Thetas_smoothed n n (fit.T - 1).toNat =
        unpack_sample r.Ms_star n n (fit.T - 1).toNat := by
  obtain ⟨s0, h0, h1, h2⟩ := smootherTerminal_square P m fit
  obtain ⟨s1, k0, k1, k2⟩ := smootherLoop_keeps_column P m fit (fit.T - 1).toNat
    (fit.T - 1).toNat (le_refl _) s0
  have hr : apply_simulation_smoother P m fit =
      some { fit with Thetas_smoothed := s1.Thetas_smoothed, Ms_star := s1.Ms_star,
                      etas := s1.etas, smoothed := true, rng := s1.rng } := by
    unfold apply_simulation_smoother
    rw [if_pos hf, h0, Option.some_bind, k0, Option.map_some']
  exact ⟨_, hr, rfl, k1.trans h1, (k2.trans h2).trans k1.symm⟩

end Smoother

/-- The filter run on `unitCovModel`: one matched step ending with `M_1 = [1/4]` and
`C_1 = [1]`. -/
theorem unitCov_run {ρ : Type} (P : Prims ℚ ρ) (g : ρ) :
    (filterLoop P unitCovModel oneStepEta g 1).M_t = !![1/4] ∧
    (filterLoop P unitCovModel oneStepEta g 1).C_t = !![1] := by
  have hf : (filterLoop P unitCovModel oneStepEta g 1).found = true := rfl
  have hc : (filterLoop P unitCovModel oneStepEta g 1).curr_obs_idx = 0 := rfl
  have o := filterLoop_obs P unitCovModel oneStepEta g 0 hf
  have hM0 : (filterLoop P unitCovModel oneStepEta g 0).M_t = unitCovModel.M0 := rfl
  have hC0 : (filterLoop P unitCovModel oneStepEta g 0).C_t =
      unitCovModel.W_scale • unitCovModel.C0 := rfl
  simp only [Nat.zero_add] at o
  rw [hc, hM0, hC0] at o
  obtain ⟨_, hq, he, hS, hM, hC, _, _⟩ := o
  constructor
  · rw [hM, hS, he]
    ext i j
    fin_cases i; fin_cases j
    simp [divScalar, priorCov, forecastVar, rowAt, unitCovModel, oneStepModel, scalarModel,
      oneStepEta, Matrix.mul_apply, Matrix.vecHead]
    norm_num
  · rw [hC, hS, hq]
    ext i j
    fin_cases i; fin_cases j
    simp [divScalar, priorCov, forecastVar, unitCovModel, oneStepModel, scalarModel,
      Matrix.mul_apply, Matrix.vecHead]
    norm_num

/-- Counterexample to C7: scalar model, one observation, every standard normal draw equal
to `1`.  The filter archives `M_1 = 1/4` and `C_1 = 1`; the smoother then stores the draw
`1/4 + 1*1*1 = 5/4` in column `T-1` of `Ms_star`, not the filtered mean `1/4`. -/
theorem terminal_Ms_star_differs_from_filtered_mean :
    (apply_Kalman_filter (fixedDraw ℚ 1) unitCovModel oneStepEta (Fit.new 1 ())).T = 1 ∧
    unpack_sample (apply_Kalman_filter (fixedDraw ℚ 1) unitCovModel oneStepEta
      (Fit.new 1 ())).Ms 1 1 0 = !![1/4] ∧
    unpack_sample (apply_Kalman_filter (fixedDraw ℚ 1) unitCovModel oneStepEta
      (Fit.new 1 ())).Cs 1 1 0 = !![1] ∧
    (apply_simulation_smoother (fixedDraw ℚ 1) unitCovModel
      (apply_Kalman_filter (fixedDraw ℚ 1) unitCovModel oneStepEta (Fit.new 1 ()))).map
        (fun r => unpack_sample r.Ms_star 1 1 0) = some !![5/4] ∧
    (apply_simulation_smoother (fixedDraw ℚ 1) unitCovModel
      (apply_Kalman_filter (fixedDraw ℚ 1) unitCovModel oneStepEta (Fit.new 1 ()))).map
        (fun r => unpack_sample r.Ms_star 1 1 0) ≠
      some (unpack_sample (apply_Kalman_filter (fixedDraw ℚ 1) unitCovModel oneStepEta
        (Fit.new 1 ())).Ms 1 1 0) := by
  have hrun := unitCov_run (fixedDraw ℚ 1) ()
  have ha := filterLoop_archive (fixedDraw ℚ 1) unitCovModel oneStepEta () 1 0 (by omega)
  have hMs : unpack_sample (apply_Kalman_filter (fixedDraw ℚ 1) unitCovModel oneStepEta
      (Fit.new 1 ())).Ms 1 1 0 = !![1/4] := ha.1.trans hrun.1
  have hCs : unpack_sample (apply_Kalman_filter (fixedDraw ℚ 1) unitCovModel oneStepEta
      (Fit.new 1 ())).Cs 1 1 0 = !![1] := ha.2.2.1.trans hrun.2
  obtain ⟨r, hr, _, hstar, _⟩ := smoother_terminal_column (fixedDraw ℚ 1) unitCovModel
    (apply_Kalman_filter (fixedDraw ℚ 1) unitCovModel oneStepEta (Fit.new 1 ())) rfl
  have hT : (apply_Kalman_filter (fixedDraw ℚ 1) unitCovModel oneStepEta (Fit.new 1 ())).T = 1 :=
    rfl
  have hcol : ((apply_Kalman_filter (fixedDraw ℚ 1) unitCovModel oneStepEta
      (Fit.new 1 ())).T - 1).toNat = 0 := rfl
  rw [hcol, hMs, hCs] at hstar
  have hval : unpack_sample r.Ms_star 1 1 0 = !![5/4] := by
    rw [hstar]
    ext i j
    fin_cases i; fin_cases j
    simp [fixedDraw, matNormalOf, Matrix.mul_apply, Matrix.vecHead]
    norm_num
  refine ⟨hT, hMs, hCs, ?_, ?_⟩
  · rw [hr, Option.map_some', hval]
  · rw [hr, Option.map_some', hval, hMs]
    intro h
    have h2 := congrFun (congrFun (Option.some.inj h) 0) 0
    norm_num at h2

/-- C7 (amended). After `apply_simulation_smoother` on a filtered fit with `T ≥ 1` and
`system_dim = D - 1`, the call returns with `smoothed` set, and column `T-1` of `Ms_star`
equals column `T-1` of `Thetas_smoothed`: both hold the terminal state sample, the
`rMatNormalCholesky` draw whose mean is the filtered mean `M_T` unpacked from column `T-1`
of `Ms`, with left factor the Cholesky factor of `C_T` and right factor `LV`. -/
theorem terminal_Ms_star_is_terminal_draw {K : Type} [Field K] {ρ : Type} {n : Nat}
    (P : Prims K ρ) (m : Model K n n) (fit : Fit K ρ n) (hf : fit.filtered = true)
    (_hT : 1 ≤ fit.T) :
    ∃ r : Fit K ρ n, apply_simulation_smoother P m fit = some r ∧
      r.smoothed = true ∧
      unpack_sample r.Ms_star n n (fit.T - 1).toNat =
        (P.rMatNormalCholesky n n (unpack_sample fit.Ms n n (fit.T - 1).toNat)
          (P.llt n (unpack_sample fit.Cs n n (fit.T - 1).toNat))
          ((P.rInvWishRevCholesky n fit.upsilonT fit.XiT fit.rng).1)ᵀ
          (P.rInvWishRevCholesky n fit.upsilonT fit.XiT fit.rng).2).1 ∧
      unpack_sample r.Thetas_smoothed n n (fit.T - 1).toNat =
        unpack_sample r.Ms_star n n (fit.T - 1).toNat :=
  smoother_terminal_column P m fit hf

/-- Witness of the amended C7 on the filtered scalar one-observation run. -/
theorem terminal_Ms_star_is_terminal_draw_witness :
    (apply_Kalman_filter (fixedDraw ℚ 1) unitCovModel oneStepEta (Fit.new 1 ())).filtered = true ∧
    1 ≤ (apply_Kalman_filter (fixedDraw ℚ 1) unitCovModel oneStepEta (Fit.new 1 ())).T ∧
    ∃ r : Fit ℚ Unit 1,
      apply_simulation_smoother (fixedDraw ℚ 1) unitCovModel
        (apply_Kalman_filter (fixedDraw ℚ 1) unitCovModel oneStepEta (Fit.new 1 ())) = some r ∧
      unpack_sample r.Thetas_smoothed 1 1 0 = unpack_sample r.Ms_star 1 1 0 :=
  have h := terminal_Ms_star_is_terminal_draw (fixedDraw ℚ 1) unitCovModel
    (apply_Kalman_filter (fixedDraw ℚ 1) unitCovModel oneStepEta (Fit.new 1 ())) rfl
    (by decide)
  ⟨rfl, by decide, h.choose, h.choose_spec.1, h.choose_spec.2.2.2⟩

/-- Counterexample to C9: on a freshly constructed instance (`filtered = false`) the
smoother does not fail; it returns the instance as it was. -/
theorem smoother_before_filter_does_not_fail :
    (Fit.new 1 () : Fit ℚ Unit 1).filtered = false ∧
    apply_simulation_smoother (fixedDraw ℚ 1) scalarModel (Fit.new 1 ()) ≠ none ∧
    apply_simulation_smoother (fixedDraw ℚ 1) scalarModel (Fit.new 1 ()) =
      some (Fit.new 1 ()) :=
  ⟨rfl, by simp [apply_simulation_smoother, Fit.new], by simp [apply_simulation_smoother, Fit.new]⟩

/-- C9 (amended). Invoking `apply_simulation_smoother` on an instance on which
`apply_Kalman_filter` has not run (`filtered = false`) is a silent no-op: the guard
`if (filtered)` skips the body, the call returns normally, and every member, `smoothed`
included, is left as it was. -/
theorem smoother_before_filter_is_noop {K : Type} [Field K] {ρ : Type} {n p : Nat}
    (P : Prims K ρ) (m : Model K n p) (fit : Fit K ρ p) (hf : fit.filtered = false) :
    apply_simulation_smoother P m fit = some fit := by
  unfold apply_simulation_smoother
  rw [if_neg (by simp [hf])]

/-- Witness of the amended C9 on a freshly constructed instance. -/
theorem smoother_before_filter_is_noop_witness :
    (Fit.new 1 () : Fit ℚ Unit 1).filtered = false ∧
    apply_simulation_smoother (fixedDraw ℚ 1) scalarModel (Fit.new 1 ()) =
      some (Fit.new 1 ()) :=
  ⟨rfl, smoother_before_filter_is_noop (fixedDraw ℚ 1) scalarModel (Fit.new 1 ()) rfl⟩

/-- Counterexample to C10: on `degenerateModel` the only step is matched with
`q_1 = -1 ≤ 0`, and `apply_Kalman_filter` still completes: `filtered = true`, with
`T = 1` and `upsilonT = 4` set. -/
theorem degenerate_variance_filter_completes :
    (filterLoop (fixedDraw ℚ 1) degenerateModel oneStepEta () 1).found = true ∧
    (filterLoop (fixedDraw ℚ 1) degenerateModel oneStepEta () 1).q_t = -1 ∧
    (filterLoop (fixedDraw ℚ 1) degenerateModel oneStepEta () 1).q_t ≤ 0 ∧
    (apply_Kalman_filter (fixedDraw ℚ 1) degenerateModel oneStepEta (Fit.new 1 ())).filtered = true ∧
    (apply_Kalman_filter (fixedDraw ℚ 1) degenerateModel oneStepEta (Fit.new 1 ())).T = 1 ∧
    (apply_Kalman_filter (fixedDraw ℚ 1) degenerateModel oneStepEta (Fit.new 1 ())).upsilonT = 4 := by
  have hf : (filterLoop (fixedDraw ℚ 1) degenerateModel oneStepEta () 1).found = true := rfl
  have o := filterLoop_obs (fixedDraw ℚ 1) degenerateModel oneStepEta () 0 hf
  have hq : (filterLoop (fixedDraw ℚ 1) degenerateModel oneStepEta () 1).q_t = -1 := by
    rw [o.2.1]
    simp [forecastVar, priorCov, filterLoop, filterInit, degenerateModel, oneStepModel,
      scalarModel, Matrix.mul_apply, Matrix.vecHead]
    norm_num
  refine ⟨hf, hq, ?_, rfl, rfl, ?_⟩
  · rw [hq]; norm_num
  · decide


section Loewner

variable {K : Type} [LinearOrderedField K] {a : Nat}

theorem isPSD_zero : IsPSD (0 : Matrix (Fin a) (Fin a) K) := by
  refine ⟨Matrix.transpose_zero, ?_⟩
  intro x
  simp

theorem isPSD_add (A B : Matrix (Fin a) (Fin a) K) (hA : IsPSD A) (hB : IsPSD B) :
    IsPSD (A + B) := by
  refine ⟨by rw [Matrix.transpose_add, hA.1, hB.1], ?_⟩
  intro x
  rw [Matrix.add_mulVec, dotProduct_add]
  exact add_nonneg (hA.2 x) (hB.2 x)

/-- Congruence `G A Gᵀ` keeps positive semi-definiteness. -/
theorem isPSD_congr (G A : Matrix (Fin a) (Fin a) K) (hA : IsPSD A) : IsPSD (G * A * Gᵀ) := by
  refine ⟨by rw [Matrix.transpose_mul, Matrix.transpose_mul, Matrix.transpose_transpose, hA.1,
    Matrix.mul_assoc], ?_⟩
  intro x
  have h := hA.2 (Gᵀ.mulVec x)
  have e : x ⬝ᵥ (G * A * Gᵀ).mulVec x = (Gᵀ.mulVec x) ⬝ᵥ A.mulVec (Gᵀ.mulVec x) := by
    rw [← Matrix.mulVec_mulVec, ← Matrix.mulVec_mulVec, Matrix.dotProduct_mulVec,
      ← Matrix.mulVec_transpose]
  rw [e]
  exact h

/-- The bilinear form of a symmetric matrix is symmetric. -/
theorem bilin_symm (A : Matrix (Fin a) (Fin a) K) (hA : Aᵀ = A) (x y : Fin a → K) :
    x ⬝ᵥ A.mulVec y = y ⬝ᵥ A.mulVec x := by
  rw [Matrix.dotProduct_mulVec, ← Matrix.mulVec_transpose, hA, dotProduct_comm]

/-- Cauchy-Schwarz for a positive semi-definite form: `(xᵀAy)² ≤ (xᵀAx)(yᵀAy)`. -/
theorem isPSD_cauchy_schwarz (A : Matrix (Fin a) (Fin a) K) (hA : IsPSD A)
    (x y : Fin a → K) :
    (x ⬝ᵥ A.mulVec y) ^ 2 ≤ (x ⬝ᵥ A.mulVec x) * (y ⬝ᵥ A.mulVec y) := by
  have hq : ∀ s : K, 0 ≤ (y ⬝ᵥ A.mulVec y) * (s * s) + (2 * (x ⬝ᵥ A.mulVec y)) * s +
      x ⬝ᵥ A.mulVec x := by
    intro s
    have h := hA.2 (x + s • y)
    have e : (x + s • y) ⬝ᵥ A.mulVec (x + s • y) =
        (y ⬝ᵥ A.mulVec y) * (s * s) + (2 * (x ⬝ᵥ A.mulVec y)) * s + x ⬝ᵥ A.mulVec x := by
      rw [Matrix.mulVec_add, Matrix.mulVec_smul, add_dotProduct, dotProduct_add, dotProduct_add,
        smul_dotProduct, smul_dotProduct, dotProduct_smul, dotProduct_smul,
        bilin_symm A hA.1 y x]
      simp only [smul_eq_mul]
      ring
    rw [e] at h
    exact h
  have hd := discrim_le_zero (K := K) hq
  unfold discrim at hd
  nlinarith [hd]

theorem bilin_single (A : Matrix (Fin a) (Fin a) K) (i j : Fin a) :
    (Pi.single i 1 : Fin a → K) ⬝ᵥ A.mulVec (Pi.single j 1) = A i j := by
  rw [Matrix.mulVec_single_one, Matrix.single_one_dotProduct, Matrix.transpose_apply]

theorem isPSD_diag_nonneg (A : Matrix (Fin a) (Fin a) K) (hA : IsPSD A) (i : Fin a) :
    0 ≤ A i i := by
  have h := hA.2 (Pi.single i 1)
  rwa [bilin_single] at h

/-- An entry of a positive semi-definite matrix is bounded by the mean of the two
diagonal entries of its row and column. -/
theorem isPSD_abs_entry_le (A : Matrix (Fin a) (Fin a) K) (hA : IsPSD A) (i j : Fin a) :
    |A i j| ≤ (A i i + A j j) / 2 := by
  have hji : A j i = A i j := by
    have := congrFun (congrFun hA.1 i) j
    rwa [Matrix.transpose_apply] at this
  have hp := hA.2 (Pi.single i 1 + Pi.single j 1)
  have hm := hA.2 (Pi.single i 1 - Pi.single j 1)
  rw [Matrix.mulVec_add, add_dotProduct, dotProduct_add, dotProduct_add, bilin_single,
    bilin_single, bilin_single, bilin_single, hji] at hp
  rw [Matrix.mulVec_sub, sub_dotProduct, dotProduct_sub, dotProduct_sub, bilin_single,
    bilin_single, bilin_single, bilin_single, hji] at hm
  rw [abs_le]
  constructor <;> linarith

/-- The scalar `Fᵀ R F` of line 116 is the quadratic form of `R` at the column of `F`. -/
theorem quad_F (R : Matrix (Fin a) (Fin a) K) (F : Matrix (Fin a) (Fin 1) K) :
    (Fᵀ * R * F) 0 0 = (fun i => F i 0) ⬝ᵥ R.mulVec (fun i => F i 0) := by
  simp only [Matrix.mul_apply, Matrix.transpose_apply, dotProduct, mulVec, Finset.sum_mul,
    Finset.mul_sum]
  rw [Finset.sum_comm]
  apply Finset.sum_congr rfl
  intro i _
  apply Finset.sum_congr rfl
  intro j _
  ring

/-- The observation branch keeps the covariance positive semi-definite when the
observation noise scale is positive: `q ≥ gamma > 0` and `R - q S Sᵀ` is positive
semi-definite, `S = R F / q`. -/
theorem isPSD_posterior (R : Matrix (Fin a) (Fin a) K) (F : Matrix (Fin a) (Fin 1) K)
    (γ : K) (hR : IsPSD R) (hγ : 0 < γ) :
    γ ≤ γ + (Fᵀ * R * F) 0 0 ∧
    IsPSD (R - ((γ + (Fᵀ * R * F) 0 0) • divScalar (R * F) (γ + (Fᵀ * R * F) 0 0)) *
      (divScalar (R * F) (γ + (Fᵀ * R * F) 0 0))ᵀ) := by
  have hF : 0 ≤ (Fᵀ * R * F) 0 0 := by rw [quad_F]; exact hR.2 _
  have hq : 0 < γ + (Fᵀ * R * F) 0 0 := by linarith
  refine ⟨by linarith, ?_⟩
  rw [gain_outer _ _ (ne_of_gt hq), divScalar_eq_smul]
  constructor
  · rw [Matrix.transpose_sub, Matrix.transpose_smul, Matrix.transpose_mul,
      Matrix.transpose_transpose, hR.1]
  · intro x
    rw [Matrix.sub_mulVec, dotProduct_sub, Matrix.smul_mulVec_assoc, dotProduct_smul,
      quad_outer, smul_eq_mul]
    have hsum : ∑ i, x i * (R * F) i 0 = x ⬝ᵥ R.mulVec (fun i => F i 0) := by
      simp only [dotProduct, mulVec, Matrix.mul_apply]
    rw [hsum]
    have hcs := isPSD_cauchy_schwarz R hR x (fun i => F i 0)
    rw [← quad_F] at hcs
    have hx := hR.2 x
    have hle : (x ⬝ᵥ R.mulVec (fun i => F i 0)) ^ 2 ≤
        (x ⬝ᵥ R.mulVec x) * (γ + (Fᵀ * R * F) 0 0) := by
      nlinarith [mul_nonneg hx (le_of_lt hγ)]
    have : (γ + (Fᵀ * R * F) 0 0)⁻¹ * (x ⬝ᵥ R.mulVec (fun i => F i 0)) ^ 2 ≤
        x ⬝ᵥ R.mulVec x := by
      rw [inv_mul_le_iff₀ hq]
      linarith
    linarith

end Loewner

section CovInvariant

variable {K : Type} [LinearOrderedField K] {ρ : Type} {n p N : Nat}

theorem priorCov_isPSD (m : Model K n p) (C : Matrix (Fin n) (Fin n) K) (hW : IsPSD m.W)
    (hw : 0 ≤ m.W_scale) (hC : IsPSD C) : IsPSD (priorCov m C) :=
  isPSD_add _ _ (isPSD_congr _ _ hC) (isPSD_smul _ _ hw hW)

theorem scaled_bound_step (m : Model K n p) (B C : Matrix (Fin n) (Fin n) K) :
    m.W_scale • (m.G * B * m.Gᵀ + m.W) - priorCov m C =
      m.G * (m.W_scale • B - C) * m.Gᵀ := by
  unfold priorCov
  simp only [smul_add, Matrix.mul_sub, Matrix.sub_mul, Matrix.mul_smul, Matrix.smul_mul]
  abel

/-- With positive semi-definite `C0` and `W`, `W_scale ≥ 0` and `gamma_scale > 0`, the
running covariance stays positive semi-definite and below `W_scale • B_t`. -/
theorem filterLoop_cov_bounds (P : Prims K ρ) (m : Model K n p)
    (eta : Matrix (Fin N) (Fin p) K) (g : ρ) (hC0 : IsPSD m.C0) (hW : IsPSD m.W)
    (hw : 0 ≤ m.W_scale) (hγ : 0 < m.gamma_scale) (t : Nat) :
    IsPSD (filterLoop P m eta g t).C_t ∧
    IsPSD (m.W_scale • scaleFreeCov m t - (filterLoop P m eta g t).C_t) := by
  induction t with
  | zero =>
    refine ⟨isPSD_smul _ _ hw hC0, ?_⟩
    have : m.W_scale • scaleFreeCov m 0 - (filterLoop P m eta g 0).C_t = 0 := sub_self _
    rw [this]
    exact isPSD_zero
  | succ t ih =>
    have hR := priorCov_isPSD m _ hW hw ih.1
    have hB : IsPSD (m.W_scale • scaleFreeCov m (t + 1) -
        priorCov m (filterLoop P m eta g t).C_t) := by
      show IsPSD (m.W_scale • (m.G * scaleFreeCov m t * m.Gᵀ + m.W) - _)
      rw [scaled_bound_step]
      exact isPSD_congr _ _ ih.2
    rcases Bool.eq_false_or_eq_true (filterLoop P m eta g (t + 1)).found with h | h
    · have o := filterLoop_obs P m eta g t h
      have hpost := isPSD_posterior (priorCov m (filterLoop P m eta g t).C_t) m.F
        m.gamma_scale hR hγ
      have hC : (filterLoop P m eta g (t + 1)).C_t =
          priorCov m (filterLoop P m eta g t).C_t -
            (forecastVar m (priorCov m (filterLoop P m eta g t).C_t) •
              divScalar (priorCov m (filterLoop P m eta g t).C_t * m.F)
                (forecastVar m (priorCov m (filterLoop P m eta g t).C_t))) *
            (divScalar (priorCov m (filterLoop P m eta g t).C_t * m.F)
                (forecastVar m (priorCov m (filterLoop P m eta g t).C_t)))ᵀ := by
        rw [o.2.2.2.2.2.1, o.2.2.2.1, o.2.1]
      refine ⟨by rw [hC]; exact hpost.2, ?_⟩
      rw [hC, sub_sub_eq_add_sub, add_sub_right_comm]
      exact isPSD_add _ _ hB (isPSD_gain_term _ _ (le_trans (le_of_lt hγ) hpost.1))
    · have o := filterLoop_gap P m eta g t h
      rw [o.2.1]
      exact ⟨hR, hB⟩

/-- Under the same hypotheses every coefficient of `C_t` is at most
`W_scale * (B_t(i,i) + B_t(j,j)) / 2` in absolute value. -/
theorem filterLoop_cov_entry_le (P : Prims K ρ) (m : Model K n p)
    (eta : Matrix (Fin N) (Fin p) K) (g : ρ) (hC0 : IsPSD m.C0) (hW : IsPSD m.W)
    (hw : 0 ≤ m.W_scale) (hγ : 0 < m.gamma_scale) (t : Nat) (i j : Fin n) :
    |(filterLoop P m eta g t).C_t i j| ≤
      m.W_scale * ((scaleFreeCov m t i i + scaleFreeCov m t j j) / 2) := by
  have hb := filterLoop_cov_bounds P m eta g hC0 hW hw hγ t
  have h1 := isPSD_abs_entry_le _ hb.1 i j
  have hi := isPSD_diag_nonneg _ hb.2 i
  have hj := isPSD_diag_nonneg _ hb.2 j
  simp only [Matrix.sub_apply, Matrix.smul_apply, smul_eq_mul] at hi hj
  linarith

end CovInvariant

theorem scaleFreeCov_withScales {K : Type} [Field K] {n p : Nat} (m : Model K n p) (w γ : K)
    (t : Nat) : scaleFreeCov (withScales m w γ) t = scaleFreeCov m t := by
  induction t with
  | zero => rfl
  | succ t ih =>
    show (withScales m w γ).G * scaleFreeCov (withScales m w γ) t * (withScales m w γ).Gᵀ +
      (withScales m w γ).W = _
    rw [ih]
    rfl

/-- The covariance part of the vanishing-noise limit: with positive semi-definite `C0` and
`W`, every coefficient of `C_t` tends to `0` as both scales tend to `0` through positive
values, at every step, matched or not. -/
theorem filterLoop_cov_tendsto_zero {ρ : Type} {n p N : Nat} (P : Prims ℝ ρ) (m : Model ℝ n p)
    (eta : Matrix (Fin N) (Fin p) ℝ) (g : ρ) (hC0 : IsPSD m.C0) (hW : IsPSD m.W) (t : Nat)
    (i j : Fin n) :
    Filter.Tendsto (fun x : ℝ × ℝ => (filterLoop P (withScales m x.1 x.2) eta g t).C_t i j)
      ((nhdsWithin 0 (Set.Ioi 0)) ×ˢ (nhdsWithin 0 (Set.Ioi 0))) (nhds 0) := by
  have hbound : ∀ᶠ x : ℝ × ℝ in (nhdsWithin 0 (Set.Ioi 0)) ×ˢ (nhdsWithin 0 (Set.Ioi 0)),
      ‖(filterLoop P (withScales m x.1 x.2) eta g t).C_t i j‖ ≤
        x.1 * ((scaleFreeCov m t i i + scaleFreeCov m t j j) / 2) := by
    have h1 : ∀ᶠ w : ℝ in nhdsWithin 0 (Set.Ioi 0), 0 < w := self_mem_nhdsWithin
    filter_upwards [h1.prod_mk h1] with x hx
    have hb := filterLoop_cov_entry_le P (withScales m x.1 x.2) eta g hC0 hW (le_of_lt hx.1)
      hx.2 t i j
    rw [scaleFreeCov_withScales] at hb
    rw [Real.norm_eq_abs]
    exact hb
  apply squeeze_zero_norm' hbound
  have hfst : Filter.Tendsto (fun x : ℝ × ℝ => x.1)
      ((nhdsWithin 0 (Set.Ioi 0)) ×ˢ (nhdsWithin 0 (Set.Ioi 0))) (nhds 0) :=
    Filter.tendsto_fst.mono_right nhdsWithin_le_nhds
  have := hfst.mul_const ((scaleFreeCov m t i i + scaleFreeCov m t j j) / 2)
  rwa [zero_mul] at this

/-- The matched step of `unitModel` with scales `w` and `γ`: the filtered mean is
`w / (γ + 2 w)`, while the propagated mean `G M0` is `0`. -/
theorem unitModel_mean {K : Type} [Field K] {ρ : Type} (P : Prims K ρ) (g : ρ) (w γ : K) :
    (filterLoop P (withScales (unitModel K) w γ) (halfEta K) g 1).found = true ∧
    (filterLoop P (withScales (unitModel K) w γ) (halfEta K) g 1).M_t 0 0 =
      (w + w) / (γ + (w + w)) * (1 / 2) ∧
    ((withScales (unitModel K) w γ).G *
      (filterLoop P (withScales (unitModel K) w γ) (halfEta K) g 0).M_t) 0 0 = 0 := by
  have hf : (filterLoop P (withScales (unitModel K) w γ) (halfEta K) g 1).found = true := rfl
  have hc : (filterLoop P (withScales (unitModel K) w γ) (halfEta K) g 1).curr_obs_idx = 0 := rfl
  have o := filterLoop_obs P (withScales (unitModel K) w γ) (halfEta K) g 0 hf
  have hM0 : (filterLoop P (withScales (unitModel K) w γ) (halfEta K) g 0).M_t =
      (unitModel K).M0 := rfl
  have hC0 : (filterLoop P (withScales (unitModel K) w γ) (halfEta K) g 0).C_t =
      w • (unitModel K).C0 := rfl
  simp only [Nat.zero_add] at o
  rw [hc, hM0, hC0] at o
  obtain ⟨_, _, he, hS, hM, _, _, _⟩ := o
  refine ⟨hf, ?_, ?_⟩
  · rw [hM, hS, he]
    simp [divScalar, priorCov, forecastVar, rowAt, withScales, unitModel, halfEta,
      Matrix.mul_apply]
  · rw [hM0]
    simp [withScales, unitModel, Matrix.mul_apply]

/-- The matched step of `negNoiseModel` with scales `w` and `γ`: `R_1 = -w`,
`q_1 = γ - w` and `C_1 = R_1 - q_1 S_1 S_1ᵀ` with `S_1 = R_1 / q_1`. -/
theorem negNoiseModel_cov {K : Type} [Field K] {ρ : Type} (P : Prims K ρ) (g : ρ) (w γ : K) :
    (filterLoop P (withScales (negNoiseModel K) w γ) (halfEta K) g 1).C_t 0 0 =
      -w - (γ + -w) * (-w / (γ + -w)) * (-w / (γ + -w)) := by
  have hf : (filterLoop P (withScales (negNoiseModel K) w γ) (halfEta K) g 1).found = true :=
    rfl
  have o := filterLoop_obs P (withScales (negNoiseModel K) w γ) (halfEta K) g 0 hf
  have hC0 : (filterLoop P (withScales (negNoiseModel K) w γ) (halfEta K) g 0).C_t =
      w • (negNoiseModel K).C0 := rfl
  simp only [Nat.zero_add] at o
  rw [hC0] at o
  obtain ⟨_, hq, _, hS, _, hC, _, _⟩ := o
  rw [hC, hS, hq]
  simp [divScalar, priorCov, forecastVar, withScales, negNoiseModel, unitModel,
    Matrix.mul_apply]

/-- Without a positive semi-definite `W` the covariance limit fails as well: along the
scales `(ε, ε + ε²)` the matched step of `negNoiseModel` has `C_1 = -(1 + ε)`. -/
theorem negNoiseModel_cov_not_tendsto : ¬ Filter.Tendsto
      (fun x : ℝ × ℝ =>
        (filterLoop (fixedDraw ℝ 1) (withScales (negNoiseModel ℝ) x.1 x.2) (halfEta ℝ) ()
          1).C_t 0 0)
      ((nhdsWithin 0 (Set.Ioi 0)) ×ˢ (nhdsWithin 0 (Set.Ioi 0))) (nhds 0) := by
  intro hlim
  have hval : ∀ ε : ℝ, 0 < ε →
      (filterLoop (fixedDraw ℝ 1) (withScales (negNoiseModel ℝ) ε (ε + ε ^ 2)) (halfEta ℝ) ()
        1).C_t 0 0 = -(1 + ε) := by
    intro ε hε
    rw [negNoiseModel_cov]
    have h2 : ε + ε ^ 2 + -ε = ε ^ 2 := by ring
    rw [h2]
    field_simp
    ring
  have hpos : ∀ᶠ ε : ℝ in nhdsWithin 0 (Set.Ioi 0), 0 < ε := self_mem_nhdsWithin
  have hsnd : Filter.Tendsto (fun ε : ℝ => ε + ε ^ 2) (nhdsWithin 0 (Set.Ioi 0))
      (nhdsWithin 0 (Set.Ioi 0)) := by
    apply tendsto_nhdsWithin_of_tendsto_nhds_of_eventually_within
    · have hc : Continuous (fun ε : ℝ => ε + ε ^ 2) := by continuity
      have := hc.tendsto 0
      simp only [ne_eq, OfNat.ofNat_ne_zero, not_false_eq_true, zero_pow, add_zero] at this
      exact this.mono_left nhdsWithin_le_nhds
    · filter_upwards [hpos] with ε hε
      exact Set.mem_Ioi.2 (by positivity)
  have hpath : Filter.Tendsto (fun ε : ℝ => (ε, ε + ε ^ 2)) (nhdsWithin 0 (Set.Ioi 0))
      ((nhdsWithin 0 (Set.Ioi 0)) ×ˢ (nhdsWithin 0 (Set.Ioi 0))) :=
    Filter.tendsto_id.prod_mk hsnd
  have hcomp := hlim.comp hpath
  have hneg : Filter.Tendsto (fun ε : ℝ => -(1 + ε)) (nhdsWithin 0 (Set.Ioi 0)) (nhds 0) := by
    refine Filter.Tendsto.congr' ?_ hcomp
    filter_upwards [hpos] with ε hε
    exact hval ε hε
  have hneg2 : Filter.Tendsto (fun ε : ℝ => -(1 + ε)) (nhdsWithin 0 (Set.Ioi 0))
      (nhds (-(1 + 0))) := by
    have hc : Continuous (fun ε : ℝ => -(1 + ε)) := by continuity
    exact (hc.tendsto 0).mono_left nhdsWithin_le_nhds
  have := tendsto_nhds_unique hneg hneg2
  norm_num at this

/-- On `unitModel` with both scales equal to `ε > 0` the matched step has `M_1 = 1/3`. -/
theorem unitModel_mean_diag (ε : ℝ) (hε : 0 < ε) :
    (filterLoop (fixedDraw ℝ 1) (withScales (unitModel ℝ) ε ε) (halfEta ℝ) () 1).M_t 0 0 =
      1 / 3 := by
  rw [(unitModel_mean (fixedDraw ℝ 1) () ε ε).2.1]
  field_simp
  ring

/-- Counterexample to C8: scalar model, one observation `1/2` at time `1`, both scales
equal to `ε`.  The step is matched and `M_1 = 1/3` for every `ε > 0`, while `G M_0 = 0`;
so `M_1` does not tend to `G M_0` as the scales tend to `0` through positive values.
Moreover, for a noise-scale matrix `W` that is not positive semi-definite, `C_1` does not
tend to `0` either. -/
theorem vanishing_scales_mean_not_propagated :
    (∀ ε : ℝ, 0 < ε →
      (filterLoop (fixedDraw ℝ 1) (withScales (unitModel ℝ) ε ε) (halfEta ℝ) () 1).found = true ∧
      (filterLoop (fixedDraw ℝ 1) (withScales (unitModel ℝ) ε ε) (halfEta ℝ) () 1).M_t 0 0 =
        1 / 3 ∧
      ((withScales (unitModel ℝ) ε ε).G *
        (filterLoop (fixedDraw ℝ 1) (withScales (unitModel ℝ) ε ε) (halfEta ℝ) () 0).M_t) 0 0 =
        0) ∧
    (¬ Filter.Tendsto
      (fun x : ℝ × ℝ =>
        (filterLoop (fixedDraw ℝ 1) (withScales (unitModel ℝ) x.1 x.2) (halfEta ℝ) () 1).M_t 0 0)
      ((nhdsWithin 0 (Set.Ioi 0)) ×ˢ (nhdsWithin 0 (Set.Ioi 0)))
      (nhds (((unitModel ℝ).G * (unitModel ℝ).M0) 0 0))) ∧
    (¬ Filter.Tendsto
      (fun x : ℝ × ℝ =>
        (filterLoop (fixedDraw ℝ 1) (withScales (negNoiseModel ℝ) x.1 x.2) (halfEta ℝ) ()
          1).C_t 0 0)
      ((nhdsWithin 0 (Set.Ioi 0)) ×ˢ (nhdsWithin 0 (Set.Ioi 0))) (nhds 0)) := by
  refine ⟨fun ε hε => ⟨(unitModel_mean (fixedDraw ℝ 1) () ε ε).1, unitModel_mean_diag ε hε,
    (unitModel_mean (fixedDraw ℝ 1) () ε ε).2.2⟩, ?_, negNoiseModel_cov_not_tendsto⟩
  intro hlim
  have hzero : ((unitModel ℝ).G * (unitModel ℝ).M0) 0 0 = 0 := by
    simp [unitModel, Matrix.mul_apply]
  rw [hzero] at hlim
  have hdiag : Filter.Tendsto (fun ε : ℝ => (ε, ε)) (nhdsWithin 0 (Set.Ioi 0))
      ((nhdsWithin 0 (Set.Ioi 0)) ×ˢ (nhdsWithin 0 (Set.Ioi 0))) :=
    Filter.tendsto_id.prod_mk Filter.tendsto_id
  have hcomp := hlim.comp hdiag
  have hconst : Filter.Tendsto (fun _ : ℝ => (1 / 3 : ℝ)) (nhdsWithin 0 (Set.Ioi 0))
      (nhds 0) := by
    refine Filter.Tendsto.congr' ?_ hcomp
    have h1 : ∀ᶠ ε : ℝ in nhdsWithin 0 (Set.Ioi 0), 0 < ε := self_mem_nhdsWithin
    filter_upwards [h1] with ε hε
    exact unitModel_mean_diag ε hε
  have := tendsto_nhds_unique hconst tendsto_const_nhds
  norm_num at this

theorem unitModel_isPSD {K : Type} [LinearOrderedField K] :
    IsPSD (unitModel K).C0 ∧ IsPSD (unitModel K).W := by
  have key : IsPSD (Matrix.of fun (_ _ : Fin 1) => (1 : K)) := by
    refine ⟨?_, ?_⟩
    · ext i j
      rfl
    · intro x
      have : x ⬝ᵥ (Matrix.of fun (_ _ : Fin 1) => (1 : K)).mulVec x = x 0 * x 0 := by
        simp [dotProduct, mulVec]
      rw [this]
      exact mul_self_nonneg _
  exact ⟨key, key⟩

/-- C8 (amended). With `C0` and `W` symmetric positive semi-definite, as `W_scale` and
`gamma_scale` both tend to `0` through positive values the filtered covariance `C_t` tends
to the zero matrix at every time step `t` in `1..T`, matched or not; and at every step
where no observation is matched the filtered mean is the propagated mean,
`M_t = G*M_{t-1}`, for all values of the scales.  Nothing is asserted about the limit of
`M_t` at a matched step. -/
theorem vanishing_scales_limit {ρ : Type} {n p N : Nat} (P : Prims ℝ ρ) (m : Model ℝ n p)
    (eta : Matrix (Fin N) (Fin p) ℝ) (g : ρ) (hC0 : IsPSD m.C0) (hW : IsPSD m.W) (t : Nat)
    (h1 : 1 ≤ t) (_hT : (t : Int) ≤ maxCoeff m.observations) :
    (∀ i j : Fin n, Filter.Tendsto
      (fun x : ℝ × ℝ => (filterLoop P (withScales m x.1 x.2) eta g t).C_t i j)
      ((nhdsWithin 0 (Set.Ioi 0)) ×ˢ (nhdsWithin 0 (Set.Ioi 0))) (nhds 0)) ∧
    (∀ w γ : ℝ, (filterLoop P (withScales m w γ) eta g t).found = false →
      (filterLoop P (withScales m w γ) eta g t).M_t =
        m.G * (filterLoop P (withScales m w γ) eta g (t - 1)).M_t) := by
  refine ⟨fun i j => filterLoop_cov_tendsto_zero P m eta g hC0 hW t i j, ?_⟩
  intro w γ hf
  obtain ⟨u, rfl⟩ : ∃ u, t = u + 1 := ⟨t - 1, by omega⟩
  exact (filterLoop_gap P (withScales m w γ) eta g u hf).1

/-- Witness of the amended C8 on the scalar model: at its matched step `C_1` tends to `0`. -/
theorem vanishing_scales_limit_witness :
    IsPSD (unitModel ℝ).C0 ∧ IsPSD (unitModel ℝ).W ∧ 1 ≤ 1 ∧
    ((1 : Nat) : Int) ≤ maxCoeff (unitModel ℝ).observations ∧
    Filter.Tendsto
      (fun x : ℝ × ℝ =>
        (filterLoop (fixedDraw ℝ 1) (withScales (unitModel ℝ) x.1 x.2) (halfEta ℝ) () 1).C_t 0 0)
      ((nhdsWithin 0 (Set.Ioi 0)) ×ˢ (nhdsWithin 0 (Set.Ioi 0))) (nhds 0) :=
  ⟨unitModel_isPSD.1, unitModel_isPSD.2, le_refl 1, by decide,
    (vanishing_scales_limit (fixedDraw ℝ 1) (unitModel ℝ) (halfEta ℝ) () unitModel_isPSD.1
      unitModel_isPSD.2 1 (le_refl 1) (by decide)).1 0 0⟩

theorem scalar_isPSD : IsPSD scalarModel.C0 ∧ IsPSD scalarModel.W := by
  have key : IsPSD (!![1] : Matrix (Fin 1) (Fin 1) ℚ) := by
    refine ⟨?_, ?_⟩
    · ext i j
      fin_cases i; fin_cases j
      rfl
    · intro x
      have : x ⬝ᵥ (!![1] : Matrix (Fin 1) (Fin 1) ℚ).mulVec x = x 0 * x 0 := by
        simp [dotProduct, mulVec, Matrix.vecHead]
      rw [this]
      exact mul_self_nonneg _
  exact ⟨key, key⟩

/-- The forward recursion in exact arithmetic (an ordered field, no rounding): if `C0` and
`W` are symmetric positive semi-definite, `W_scale ≥ 0` and `gamma_scale > 0`, then at every
time step `t` in `1..T` the forecast covariance `R_t` and the posterior covariance `C_t` are
symmetric positive semi-definite, as running matrices and as archived columns, and at every
matched step `q_t ≥ gamma_scale > 0`.  The statement is about the recursion as a map on
exact matrices; it says nothing on the signs of the rounded binary64 values, where
`R_t - q_t S_t S_tᵀ` can come out negative by an amount of the order of the rounding error
and a small `gamma_scale` can be absorbed in the sum `gamma_scale + Fᵀ R_t F`. -/
theorem forward_recursion_keeps_psd {K : Type} [LinearOrderedField K] {ρ : Type}
    {n p N : Nat} (P : Prims K ρ) (m : Model K n p) (eta : Matrix (Fin N) (Fin p) K)
    (fit : Fit K ρ p) (hC0 : IsPSD m.C0) (hW : IsPSD m.W) (hw : 0 ≤ m.W_scale)
    (hγ : 0 < m.gamma_scale) (t : Nat) (h1 : 1 ≤ t)
    (hT : (t : Int) ≤ maxCoeff m.observations) :
    IsPSD (filterLoop P m eta fit.rng t).R_t ∧
    IsPSD (filterLoop P m eta fit.rng t).C_t ∧
    IsPSD (unpack_sample (apply_Kalman_filter P m eta fit).Rs n n (t - 1)) ∧
    IsPSD (unpack_sample (apply_Kalman_filter P m eta fit).Cs n n (t - 1)) ∧
    ((filterLoop P m eta fit.rng t).found = true →
      m.gamma_scale ≤ (filterLoop P m eta fit.rng t).q_t ∧
      0 < (filterLoop P m eta fit.rng t).q_t ∧
      (filterLoop P m eta fit.rng t).q_t ≠ 0) := by
  obtain ⟨u, rfl⟩ : ∃ u, t = u + 1 := ⟨t - 1, by omega⟩
  have hlt : u < (maxCoeff m.observations).toNat := by omega
  have ha := filterLoop_archive P m eta fit.rng _ u hlt
  have hprev := (filterLoop_cov_bounds P m eta fit.rng hC0 hW hw hγ u).1
  have hC := (filterLoop_cov_bounds P m eta fit.rng hC0 hW hw hγ (u + 1)).1
  have hR : IsPSD (filterLoop P m eta fit.rng (u + 1)).R_t := by
    rw [filterLoop_R]
    exact priorCov_isPSD m _ hW hw hprev
  simp only [Nat.add_sub_cancel]
  refine ⟨hR, hC, ?_, ?_, ?_⟩
  · show IsPSD (unpack_sample (filterLoop P m eta fit.rng _).Rs n n u)
    rw [ha.2.1]; exact hR
  · show IsPSD (unpack_sample (filterLoop P m eta fit.rng _).Cs n n u)
    rw [ha.2.2.1]; exact hC
  · intro hf
    have o := filterLoop_obs P m eta fit.rng u hf
    have hq : m.gamma_scale ≤ (filterLoop P m eta fit.rng (u + 1)).q_t := by
      rw [o.2.1]
      exact (isPSD_posterior (priorCov m (filterLoop P m eta fit.rng u).C_t) m.F
        m.gamma_scale (priorCov_isPSD m _ hW hw hprev) hγ).1
    have hpos : 0 < (filterLoop P m eta fit.rng (u + 1)).q_t := lt_of_lt_of_le hγ hq
    exact ⟨hq, hpos, ne_of_gt hpos⟩

/-- The exact forward recursion at step `t = 2` of the end-to-end scenario (`C0 = W = [1]`,
`W_scale = gamma_scale = 1`). -/
theorem forward_recursion_keeps_psd_witness :
    IsPSD scalarModel.C0 ∧ IsPSD scalarModel.W ∧ 0 ≤ scalarModel.W_scale ∧
    0 < scalarModel.gamma_scale ∧ 1 ≤ 2 ∧
    ((2 : Nat) : Int) ≤ maxCoeff scalarModel.observations ∧
    IsPSD (filterLoop (fixedDraw ℚ 1) scalarModel scalarEta () 2).R_t ∧
    IsPSD (filterLoop (fixedDraw ℚ 1) scalarModel scalarEta () 2).C_t ∧
    scalarModel.gamma_scale ≤ (filterLoop (fixedDraw ℚ 1) scalarModel scalarEta () 2).q_t :=
  have hw : 0 ≤ scalarModel.W_scale := by norm_num [scalarModel]
  have hγ : 0 < scalarModel.gamma_scale := by norm_num [scalarModel]
  have h := forward_recursion_keeps_psd (fixedDraw ℚ 1) scalarModel scalarEta (Fit.new 1 ())
    scalar_isPSD.1 scalar_isPSD.2 hw hγ 2 (by decide) (by decide)
  ⟨scalar_isPSD.1, scalar_isPSD.2, hw, hγ, by decide, by decide, h.1, h.2.1,
    (h.2.2.2.2 (by decide)).1⟩

/-- With `system_dim ≠ D - 1` the product `Z*(LV.transpose())` is not conformable. -/
theorem noiseTimesLVt_ne {K : Type} [Field K] {n p : Nat} (h : n ≠ p)
    (Z : Matrix (Fin 1) (Fin n) K) (LV : Matrix (Fin p) (Fin p) K) :
    noiseTimesLVt Z LV = none := by
  unfold noiseTimesLVt
  rw [dif_neg h]

/-- With `system_dim ≠ D - 1` the smoother of a filtered fit has no defined result: the
terminal step already forms the non-conformable product. -/
theorem smoother_undefined_of_ne {K : Type} [Field K] {ρ : Type} {n p : Nat} (h : n ≠ p)
    (P : Prims K ρ) (m : Model K n p) (fit : Fit K ρ p) (hf : fit.filtered = true) :
    apply_simulation_smoother P m fit = none := by
  have ht : smootherTerminal P m fit = none := by
    unfold smootherTerminal
    simp only [noiseTimesLVt_ne h]
  unfold apply_simulation_smoother
  rw [if_pos hf, ht]
  rfl

/-- C12 (failing input). `system_dim = 1`, `D - 1 = 2`: the forward filter accepts the
configuration and completes, but in the smoother the noise matrix `Z` has shape
`F.cols() x F.rows() = 1 x 1` while `LV` is `2 x 2`, so `Z*(LV.transpose())` is not
conformable and no column of `etas` is defined. -/
theorem response_noise_not_conformable :
    (apply_Kalman_filter (fixedDraw ℚ 1) wideResponseModel wideResponseEta
      (Fit.new 2 ())).filtered = true ∧
    (apply_Kalman_filter (fixedDraw ℚ 1) wideResponseModel wideResponseEta
      (Fit.new 2 ())).T = 1 ∧
    (∀ (Z : Matrix (Fin 1) (Fin 1) ℚ) (LV : Matrix (Fin 2) (Fin 2) ℚ),
      noiseTimesLVt Z LV = none) ∧
    smootherTerminal (fixedDraw ℚ 1) wideResponseModel
      (apply_Kalman_filter (fixedDraw ℚ 1) wideResponseModel wideResponseEta
        (Fit.new 2 ())) = none ∧
    apply_simulation_smoother (fixedDraw ℚ 1) wideResponseModel
      (apply_Kalman_filter (fixedDraw ℚ 1) wideResponseModel wideResponseEta
        (Fit.new 2 ())) = none := by
  refine ⟨rfl, rfl, fun Z LV => noiseTimesLVt_ne (by decide) Z LV, ?_,
    smoother_undefined_of_ne (by decide) _ _ _ rfl⟩
  unfold smootherTerminal
  simp only [noiseTimesLVt_ne (by decide : (1 : Nat) ≠ 2)]

/-- A successful scan ends on a position of the observation vector. -/
theorem findObs_found_lt (obs : List Int) (t c : Int) (h : (findObs obs t c).2 = true) :
    ∃ k : Nat, (findObs obs t c).1 = (k : Int) ∧ k < obs.length := by
  by_cases hmem : t ∈ obs.drop (c + 1).toNat
  · obtain ⟨i, h1, h2, _⟩ := scanObs_mem _ (c + 1).toNat t (c, false) hmem
    refine ⟨(c + 1).toNat + i, ?_, ?_⟩
    · unfold findObs
      rw [h1]
    · rw [List.getElem?_drop] at h2
      exact (List.getElem?_eq_some.1 h2).1
  · exfalso
    unfold findObs at h
    rw [scanObs_not_mem _ _ _ _ hmem] at h
    exact Bool.false_ne_true h

section Outcome

variable {K : Type} [Field K] [DecidableEq K] {ρ : Type} {n p N : Nat}

/-- With a row of `eta` for every observation and nonzero forecast variances at the
matched steps, no iteration leaves the embedding. -/
theorem firstFailure_none (P : Prims K ρ) (m : Model K n p) (eta : Matrix (Fin N) (Fin p) K)
    (g : ρ) (hrows : m.observations.length ≤ N) (t : Nat)
    (hq : ∀ u : Nat, 1 ≤ u → u ≤ t → (filterLoop P m eta g u).found = true →
      (filterLoop P m eta g u).q_t ≠ 0) :
    firstFailure P m eta g t = none := by
  induction t with
  | zero => rfl
  | succ t ih =>
    rw [firstFailure, ih (fun u h1 h2 hf => hq u h1 (by omega) hf)]
    show stepFailure N (filterLoop P m eta g (t + 1)) (t + 1) = none
    unfold stepFailure
    rcases Bool.eq_false_or_eq_true (filterLoop P m eta g (t + 1)).found with h | h
    · rw [if_pos h]
      have hf := h
      rw [filterLoop_found] at hf
      obtain ⟨k, hk, hlt⟩ := findObs_found_lt _ _ _ hf
      have hc : (filterLoop P m eta g (t + 1)).curr_obs_idx = (k : Int) := by
        rw [filterLoop_curr]; exact hk
      rw [hc, if_pos ⟨by omega, by simp; omega⟩, if_neg (hq (t + 1) (by omega) (le_refl _) h)]
    · rw [if_neg (by simp [h])]

/-- A negative maximum observation stops the call at the allocations. -/
theorem outcome_negative_horizon (P : Prims K ρ) (m : Model K n p)
    (eta : Matrix (Fin N) (Fin p) K) (fit : Fit K ρ p) (hne : m.observations ≠ [])
    (hT : maxCoeff m.observations < 0) :
    apply_Kalman_filter_outcome P m eta fit = Except.error CallFailure.negativeHorizon := by
  unfold apply_Kalman_filter_outcome
  rw [if_neg hne, if_pos hT]

end Outcome

/-- C10 (amended). `apply_Kalman_filter` has no test on the forecast variance, so a
matched step with `q_t < 0` is not detected.  On an input with non-empty `observations`,
`T ≥ 0` and a row of `eta` for every observation, if `q_t ≠ 0` at every matched step,
negative values included, the call raises nothing: it runs all `T` iterations, sets
`filtered = true` and returns `T`, `upsilonT` and `XiT` from the last iteration.  (The
case `q_t = 0`, where the doubles become non-finite, is left out.) -/
theorem negative_variance_not_detected {K : Type} [Field K] [DecidableEq K] {ρ : Type}
    {n p N : Nat} (P : Prims K ρ) (m : Model K n p) (eta : Matrix (Fin N) (Fin p) K)
    (fit : Fit K ρ p) (hne : m.observations ≠ []) (hT : 0 ≤ maxCoeff m.observations)
    (hrows : m.observations.length ≤ N)
    (hq : ∀ t : Nat, 1 ≤ t → (t : Int) ≤ maxCoeff m.observations →
      (filterLoop P m eta fit.rng t).found = true → (filterLoop P m eta fit.rng t).q_t ≠ 0) :
    apply_Kalman_filter_outcome P m eta fit = Except.ok (apply_Kalman_filter P m eta fit) ∧
    (apply_Kalman_filter P m eta fit).filtered = true ∧
    (apply_Kalman_filter P m eta fit).T = maxCoeff m.observations ∧
    (apply_Kalman_filter P m eta fit).upsilonT =
      (filterLoop P m eta fit.rng (maxCoeff m.observations).toNat).upsilon_t ∧
    (apply_Kalman_filter P m eta fit).XiT =
      (filterLoop P m eta fit.rng (maxCoeff m.observations).toNat).Xi_t := by
  refine ⟨?_, rfl, rfl, rfl, rfl⟩
  unfold apply_Kalman_filter_outcome
  rw [if_neg hne, if_neg (by omega),
    firstFailure_none P m eta fit.rng hrows _ (fun u h1 h2 hf => hq u h1 (by omega) hf)]

/-- Witness of the amended C10: `degenerateModel` has one observation, one row of `eta`,
and `q_1 = -1` at its matched step; the call returns with `filtered = true`. -/
theorem negative_variance_not_detected_witness :
    degenerateModel.observations ≠ [] ∧ 0 ≤ maxCoeff degenerateModel.observations ∧
    degenerateModel.observations.length ≤ 1 ∧
    (filterLoop (fixedDraw ℚ 1) degenerateModel oneStepEta () 1).found = true ∧
    (filterLoop (fixedDraw ℚ 1) degenerateModel oneStepEta () 1).q_t = -1 ∧
    apply_Kalman_filter_outcome (fixedDraw ℚ 1) degenerateModel oneStepEta (Fit.new 1 ()) =
      Except.ok (apply_Kalman_filter (fixedDraw ℚ 1) degenerateModel oneStepEta
        (Fit.new 1 ())) ∧
    (apply_Kalman_filter (fixedDraw ℚ 1) degenerateModel oneStepEta
      (Fit.new 1 ())).filtered = true := by
  have hf : (filterLoop (fixedDraw ℚ 1) degenerateModel oneStepEta () 1).found = true := rfl
  have o := filterLoop_obs (fixedDraw ℚ 1) degenerateModel oneStepEta () 0 hf
  have hq1 : (filterLoop (fixedDraw ℚ 1) degenerateModel oneStepEta () 1).q_t = -1 := by
    rw [o.2.1]
    simp [forecastVar, priorCov, filterLoop, filterInit, degenerateModel, oneStepModel,
      scalarModel, Matrix.mul_apply, Matrix.vecHead]
    norm_num
  have hq : ∀ t : Nat, 1 ≤ t → (t : Int) ≤ maxCoeff degenerateModel.observations →
      (filterLoop (fixedDraw ℚ 1) degenerateModel oneStepEta () t).found = true →
      (filterLoop (fixedDraw ℚ 1) degenerateModel oneStepEta () t).q_t ≠ 0 := by
    intro t h1 h2 _
    have hm : maxCoeff degenerateModel.observations = 1 := by decide
    rw [hm] at h2
    have ht : t = 1 := by omega
    subst ht
    rw [hq1]; norm_num
  have h := negative_variance_not_detected (fixedDraw ℚ 1) degenerateModel oneStepEta (Fit.new 1 ())
    (by decide) (by decide) (by decide) hq
  exact ⟨by decide, by decide, by decide, hf, hq1, h.1, h.2.1⟩

/-- The failure values are reached: with `observations = [-2]` the call stops at the
allocations, and with no observation at all at `maxCoeff()`. -/
theorem outcome_failures_reached :
    apply_Kalman_filter_outcome (fixedDraw ℚ 1) negativeTimeModel oneStepEta (Fit.new 1 ()) =
      Except.error CallFailure.negativeHorizon ∧
    apply_Kalman_filter_outcome (fixedDraw ℚ 1) { scalarModel with observations := [] }
      oneStepEta (Fit.new 1 ()) = Except.error CallFailure.emptyObservations := by
  constructor
  · exact outcome_negative_horizon _ _ _ _ (by decide) (by decide)
  · rfl

section Backward

variable {K : Type} [Field K] {ρ : Type} {n p : Nat}

/-- The value `inverse A` is the matrix inverse `A⁻¹`. -/
theorem inverse_eq_inv (A : Matrix (Fin n) (Fin n) K) : inverse A = A⁻¹ := by
  rw [Matrix.inv_def, Ring.inverse_eq_inv]
  rfl

/-- For a nonzero determinant `inverse A` is a two-sided inverse of `A`. -/
theorem inverse_mul_cancel (A : Matrix (Fin n) (Fin n) K) (h : A.det ≠ 0) :
    inverse A * A = 1 ∧ A * inverse A = 1 := by
  rw [inverse_eq_inv]
  have hu : IsUnit A.det := isUnit_iff_ne_zero.2 h
  exact ⟨Matrix.nonsing_inv_mul A hu, Matrix.mul_nonsing_inv A hu⟩

/-- A backward iteration that returns has stored the draw of lines 206-216 in its state and
in column `t-1` of `Thetas_smoothed`, and has kept `LV`. -/
theorem smootherStep_some (P : Prims K ρ) (m : Model K n p) (fit : Fit K ρ p) (t : Nat)
    (s s1 : SmootherState K ρ n p) (h : smootherStep P m fit t s = some s1) :
    s1.R_t = (backwardDraw P m fit t s.smoothed_Theta_t s.LV s.rng).R_t ∧
    s1.M_t = (backwardDraw P m fit t s.smoothed_Theta_t s.LV s.rng).M_t ∧
    s1.C_t = (backwardDraw P m fit t s.smoothed_Theta_t s.LV s.rng).C_t ∧
    s1.Z_t = (backwardDraw P m fit t s.smoothed_Theta_t s.LV s.rng).Z_t ∧
    s1.M_t_star = (backwardDraw P m fit t s.smoothed_Theta_t s.LV s.rng).M_t_star ∧
    s1.C_t_star = (backwardDraw P m fit t s.smoothed_Theta_t s.LV s.rng).C_t_star ∧
    s1.LU = (backwardDraw P m fit t s.smoothed_Theta_t s.LV s.rng).LU ∧
    s1.smoothed_Theta_t =
      (backwardDraw P m fit t s.smoothed_Theta_t s.LV s.rng).smoothed_Theta_t ∧
    s1.LV = s.LV ∧
    s1.Thetas_smoothed = packColumn s.Thetas_smoothed (t - 1) s1.smoothed_Theta_t := by
  unfold smootherStep at h
  simp only at h
  split at h
  · cases h
  · cases h
    exact ⟨rfl, rfl, rfl, rfl, rfl, rfl, rfl, rfl, rfl, rfl⟩

/-- With `system_dim ≠ D - 1` the run of the smoother never gets past the terminal step. -/
theorem smootherAfter_none_of_ne (h : n ≠ p) (P : Prims K ρ) (m : Model K n p)
    (fit : Fit K ρ p) (k : Nat) : smootherAfter P m fit k = none := by
  induction k with
  | zero =>
    show smootherTerminal P m fit = none
    unfold smootherTerminal
    simp only [noiseTimesLVt_ne h]
  | succ k ih => rw [smootherAfter, ih]; rfl

/-- After `k` backward iterations, for `system_dim = D - 1`, the state exists and the
latest draw sits in column `(T-1) - k`. -/
theorem smootherAfter_square (P : Prims K ρ) (m : Model K n n) (fit : Fit K ρ n) (k : Nat)
    (hk : k ≤ (fit.T - 1).toNat) :
    ∃ s : SmootherState K ρ n n, smootherAfter P m fit k = some s ∧
      unpack_sample s.Thetas_smoothed n n ((fit.T - 1).toNat - k) = s.smoothed_Theta_t := by
  induction k with
  | zero =>
    show ∃ s, smootherTerminal P m fit = some s ∧ _
    unfold smootherTerminal
    simp only [noiseTimesLVt, dif_pos]
    exact ⟨_, rfl, unpack_packColumn _ _ _⟩
  | succ k ih =>
    obtain ⟨s, hs, _⟩ := ih (by omega)
    obtain ⟨s1, h1, _, _⟩ := smootherStep_square P m fit ((fit.T - 1).toNat - k) s
    have hθ := (smootherStep_some P m fit _ s s1 h1).2.2.2.2.2.2.2.2.2
    refine ⟨s1, ?_, ?_⟩
    · rw [smootherAfter, hs, Option.some_bind, h1]
    · rw [hθ, show (fit.T - 1).toNat - (k + 1) = (fit.T - 1).toNat - k - 1 by omega]
      exact unpack_packColumn _ _ _

/-- Whenever the run has a state after `k` backward iterations, the latest draw sits in
column `(T-1) - k` of `Thetas_smoothed`. -/
theorem smootherAfter_draw_column (P : Prims K ρ) (m : Model K n p) (fit : Fit K ρ p)
    (k : Nat) (hk : k ≤ (fit.T - 1).toNat) (s : SmootherState K ρ n p)
    (hs : smootherAfter P m fit k = some s) :
    unpack_sample s.Thetas_smoothed n p ((fit.T - 1).toNat - k) = s.smoothed_Theta_t := by
  by_cases h : n = p
  · subst h
    obtain ⟨s2, h2, h3⟩ := smootherAfter_square P m fit k hk
    rw [hs] at h2
    rw [Option.some.inj h2]
    exact h3
  · rw [smootherAfter_none_of_ne h] at hs
    cases hs

/-- Later backward iterations leave the columns already written untouched. -/
theorem smootherAfter_keeps_columns (P : Prims K ρ) (m : Model K n n) (fit : Fit K ρ n)
    (k d : Nat) (hk : k + d ≤ (fit.T - 1).toNat) (s s2 : SmootherState K ρ n n)
    (hs : smootherAfter P m fit k = some s) (hs2 : smootherAfter P m fit (k + d) = some s2)
    (j : Nat) (hj : (fit.T - 1).toNat - k ≤ j) :
    unpack_sample s2.Thetas_smoothed n n j = unpack_sample s.Thetas_smoothed n n j := by
  induction d generalizing s2 with
  | zero =>
    rw [Nat.add_zero, hs] at hs2
    rw [Option.some.inj hs2]
  | succ d ih =>
    obtain ⟨s1, hs1, _⟩ := smootherAfter_square P m fit (k + d) (by omega)
    obtain ⟨s3, h3, _, _⟩ := smootherStep_square P m fit ((fit.T - 1).toNat - (k + d)) s1
    have hθ := (smootherStep_some P m fit _ s1 s3 h3).2.2.2.2.2.2.2.2.2
    have e : smootherAfter P m fit (k + (d + 1)) = some s3 := by
      rw [← Nat.add_assoc, smootherAfter, hs1, Option.some_bind, h3]
    rw [e] at hs2
    rw [← Option.some.inj hs2, hθ, unpack_packColumn_ne _ _ _ _ (by omega)]
    exact ih (by omega) s1 hs1

/-- The backward loop is the iteration of `smootherStep` recorded by `smootherAfter`. -/
theorem smootherLoop_eq_after (P : Prims K ρ) (m : Model K n p) (fit : Fit K ρ p) (k : Nat)
    (hk : k ≤ (fit.T - 1).toNat) :
    (smootherAfter P m fit k).bind (smootherLoop P m fit ((fit.T - 1).toNat - k)) =
      (smootherTerminal P m fit).bind (smootherLoop P m fit (fit.T - 1).toNat) := by
  induction k with
  | zero => rfl
  | succ k ih =>
    rw [← ih (by omega)]
    obtain ⟨d, hd⟩ : ∃ d, (fit.T - 1).toNat - k = d + 1 :=
      ⟨(fit.T - 1).toNat - k - 1, by omega⟩
    have hd2 : (fit.T - 1).toNat - (k + 1) = d := by omega
    rw [smootherAfter, hd, hd2, Option.bind_assoc]
    rfl

/-- The result of the smoother on a filtered fit, read off the recorded iterations. -/
theorem smoother_eq_after (P : Prims K ρ) (m : Model K n p) (fit : Fit K ρ p)
    (hf : fit.filtered = true) (s : SmootherState K ρ n p)
    (hs : smootherAfter P m fit (fit.T - 1).toNat = some s) :
    apply_simulation_smoother P m fit =
      some { fit with Thetas_smoothed := s.Thetas_smoothed, Ms_star := s.Ms_star,
                      etas := s.etas, smoothed := true, rng := s.rng } := by
  have h := smootherLoop_eq_after P m fit (fit.T - 1).toNat (le_refl _)
  rw [hs, Nat.sub_self] at h
  unfold apply_simulation_smoother
  rw [if_pos hf, ← h]
  rfl

end Backward

/-- For `system_dim = D - 1` the run of the smoother on a filtered fit reaches and
completes every backward step `t` in `1..T-1`; column `t` of the final `Thetas_smoothed`
is the sample the step starts from and column `t-1` the sample it draws. -/
theorem backward_step_reached {K : Type} [Field K] {ρ : Type} {n : Nat} (P : Prims K ρ)
    (m : Model K n n) (fit : Fit K ρ n) (hf : fit.filtered = true) (t : Nat) (h1 : 1 ≤ t)
    (htc : t ≤ (fit.T - 1).toNat) :
    ∃ (s s1 : SmootherState K ρ n n) (r : Fit K ρ n),
      smootherAfter P m fit ((fit.T - 1).toNat - t) = some s ∧
      smootherStep P m fit t s = some s1 ∧
      apply_simulation_smoother P m fit = some r ∧
      unpack_sample r.Thetas_smoothed n n t = s.smoothed_Theta_t ∧
      unpack_sample r.Thetas_smoothed n n (t - 1) = s1.smoothed_Theta_t := by
  have hcol : (fit.T - 1).toNat - ((fit.T - 1).toNat - t) = t := by omega
  obtain ⟨s, hs, hsθ⟩ := smootherAfter_square P m fit ((fit.T - 1).toNat - t) (by omega)
  rw [hcol] at hsθ
  obtain ⟨s1, hstep, _, _⟩ := smootherStep_square P m fit t s
  have hTh := (smootherStep_some P m fit t s s1 hstep).2.2.2.2.2.2.2.2.2
  have hs1 : smootherAfter P m fit ((fit.T - 1).toNat - t + 1) = some s1 := by
    rw [smootherAfter, hs, Option.some_bind, hcol, hstep]
  obtain ⟨sF, hsF, _⟩ := smootherAfter_square P m fit (fit.T - 1).toNat (le_refl _)
  have hr := smoother_eq_after P m fit hf sF hsF
  have hsF1 : smootherAfter P m fit (((fit.T - 1).toNat - t) + t) = some sF := by
    rw [Nat.sub_add_cancel htc]; exact hsF
  have hsF2 : smootherAfter P m fit (((fit.T - 1).toNat - t + 1) + (t - 1)) = some sF := by
    rw [show (fit.T - 1).toNat - t + 1 + (t - 1) = (fit.T - 1).toNat by omega]; exact hsF
  have hk1 := smootherAfter_keeps_columns P m fit ((fit.T - 1).toNat - t) t (by omega)
    s sF hs hsF1 t (by omega)
  have hk2 := smootherAfter_keeps_columns P m fit ((fit.T - 1).toNat - t + 1) (t - 1)
    (by omega) s1 sF hs1 hsF2 (t - 1) (by omega)
  refine ⟨s, s1, _, hs, hstep, hr, ?_, ?_⟩
  · show unpack_sample sF.Thetas_smoothed n n t = s.smoothed_Theta_t
    rw [hk1, hsθ]
  · show unpack_sample sF.Thetas_smoothed n n (t - 1) = s1.smoothed_Theta_t
    rw [hk2, hTh]
    exact unpack_packColumn _ _ _

/-- C11. For every `t` in `1..T-1` with an invertible forecast covariance `R_{t+1}`, and for
every `system_dim` and `D - 1`: lines 206-216 of backward step `t`, run on the output of
`apply_Kalman_filter` from any incoming sample `theta_{t+1}`, call the matrix-normal
sampler with mean `M*_t = M_t + Z_t (theta_{t+1} - G M_t)` and left factor the Cholesky
factor of `C*_t = C_t - Z_t R_{t+1} Z_tᵀ`, where `Z_t = C_t Gᵀ R_{t+1}⁻¹`; `M_t`, `C_t`
are the posterior mean and covariance the forward pass computed at time `t` and `R_{t+1}`
the forecast covariance it computed at time `t+1`, read back by `unpack_sample` from
archive columns `t-1` and `t`.  In the run of the smoother, the state that enters step `t`
holds as `theta_{t+1}` the sample stored in column `t` of `Thetas_smoothed`, and the step
stores its draw in column `t-1`; for `system_dim = D - 1` the run reaches and completes
the step. -/
theorem backward_step_uses_forward_moments {K : Type} [Field K] {ρ : Type} {n p N : Nat}
    (P : Prims K ρ) (m : Model K n p) (eta : Matrix (Fin N) (Fin p) K) (fit0 : Fit K ρ p)
    (fit : Fit K ρ p) (hfit : fit = apply_Kalman_filter P m eta fit0)
    (t : Nat) (h1 : 1 ≤ t) (hT : (t : Int) + 1 ≤ maxCoeff m.observations)
    (hinv : (filterLoop P m eta fit0.rng (t + 1)).R_t.det ≠ 0) :
    (∀ (theta_next : Matrix (Fin n) (Fin p) K) (LV : Matrix (Fin p) (Fin p) K) (g : ρ),
      (backwardDraw P m fit t theta_next LV g).M_t = unpack_sample fit.Ms n p (t - 1) ∧
      (backwardDraw P m fit t theta_next LV g).M_t = (filterLoop P m eta fit0.rng t).M_t ∧
      (backwardDraw P m fit t theta_next LV g).C_t = unpack_sample fit.Cs n n (t - 1) ∧
      (backwardDraw P m fit t theta_next LV g).C_t = (filterLoop P m eta fit0.rng t).C_t ∧
      (backwardDraw P m fit t theta_next LV g).R_t = unpack_sample fit.Rs n n t ∧
      (backwardDraw P m fit t theta_next LV g).R_t =
        (filterLoop P m eta fit0.rng (t + 1)).R_t ∧
      (backwardDraw P m fit t theta_next LV g).R_t_inv *
        (backwardDraw P m fit t theta_next LV g).R_t = 1 ∧
      (backwardDraw P m fit t theta_next LV g).R_t *
        (backwardDraw P m fit t theta_next LV g).R_t_inv = 1 ∧
      (backwardDraw P m fit t theta_next LV g).Z_t =
        (backwardDraw P m fit t theta_next LV g).C_t * m.Gᵀ *
          (backwardDraw P m fit t theta_next LV g).R_t_inv ∧
      (backwardDraw P m fit t theta_next LV g).M_t_star =
        (backwardDraw P m fit t theta_next LV g).M_t +
          (backwardDraw P m fit t theta_next LV g).Z_t *
            (theta_next - m.G * (backwardDraw P m fit t theta_next LV g).M_t) ∧
      (backwardDraw P m fit t theta_next LV g).C_t_star =
        (backwardDraw P m fit t theta_next LV g).C_t -
          (backwardDraw P m fit t theta_next LV g).Z_t *
            (backwardDraw P m fit t theta_next LV g).R_t *
            ((backwardDraw P m fit t theta_next LV g).Z_t)ᵀ ∧
      (backwardDraw P m fit t theta_next LV g).LU =
        P.llt n (backwardDraw P m fit t theta_next LV g).C_t_star ∧
      (backwardDraw P m fit t theta_next LV g).smoothed_Theta_t =
        (P.rMatNormalCholesky n p (backwardDraw P m fit t theta_next LV g).M_t_star
          (backwardDraw P m fit t theta_next LV g).LU LV g).1) ∧
    (∀ s : SmootherState K ρ n p,
      smootherAfter P m fit ((fit.T - 1).toNat - t) = some s →
      s.smoothed_Theta_t = unpack_sample s.Thetas_smoothed n p t ∧
      ∀ s1 : SmootherState K ρ n p, smootherStep P m fit t s = some s1 →
        s1.M_t_star = (backwardDraw P m fit t s.smoothed_Theta_t s.LV s.rng).M_t_star ∧
        s1.C_t_star = (backwardDraw P m fit t s.smoothed_Theta_t s.LV s.rng).C_t_star ∧
        s1.LU = (backwardDraw P m fit t s.smoothed_Theta_t s.LV s.rng).LU ∧
        s1.smoothed_Theta_t =
          (backwardDraw P m fit t s.smoothed_Theta_t s.LV s.rng).smoothed_Theta_t ∧
        unpack_sample s1.Thetas_smoothed n p (t - 1) = s1.smoothed_Theta_t) ∧
    (n = p → ∃ (s s1 : SmootherState K ρ n p) (r : Fit K ρ p),
      smootherAfter P m fit ((fit.T - 1).toNat - t) = some s ∧
      smootherStep P m fit t s = some s1 ∧
      apply_simulation_smoother P m fit = some r ∧
      unpack_sample r.Thetas_smoothed n p t = s.smoothed_Theta_t ∧
      unpack_sample r.Thetas_smoothed n p (t - 1) = s1.smoothed_Theta_t) := by
  have hTfit : fit.T = maxCoeff m.observations := by rw [hfit]; rfl
  have hf : fit.filtered = true := by rw [hfit]; rfl
  have htc : t ≤ (fit.T - 1).toNat := by rw [hTfit]; omega
  have hcol : (fit.T - 1).toNat - ((fit.T - 1).toNat - t) = t := by omega
  have hlt1 : t - 1 < (maxCoeff m.observations).toNat := by omega
  have hlt2 : t < (maxCoeff m.observations).toNat := by omega
  have ha1 := filterLoop_archive P m eta fit0.rng _ (t - 1) hlt1
  have ha2 := filterLoop_archive P m eta fit0.rng _ t hlt2
  rw [Nat.sub_add_cancel h1] at ha1
  have hMs : unpack_sample fit.Ms n p (t - 1) = (filterLoop P m eta fit0.rng t).M_t := by
    rw [hfit]; exact ha1.1
  have hCs : unpack_sample fit.Cs n n (t - 1) = (filterLoop P m eta fit0.rng t).C_t := by
    rw [hfit]; exact ha1.2.2.1
  have hRs : unpack_sample fit.Rs n n t = (filterLoop P m eta fit0.rng (t + 1)).R_t := by
    rw [hfit]; exact ha2.2.1
  have hdet : (unpack_sample fit.Rs n n t : Matrix (Fin n) (Fin n) K).det ≠ 0 := by
    rw [hRs]; exact hinv
  refine ⟨?_, ?_, ?_⟩
  · intro theta_next LV g
    have hi := inverse_mul_cancel (unpack_sample fit.Rs n n t) hdet
    exact ⟨rfl, hMs, rfl, hCs, rfl, hRs, hi.1, hi.2, rfl, rfl, rfl, rfl, rfl⟩
  · intro s hs
    have hθ := smootherAfter_draw_column P m fit _ (by omega) s hs
    rw [hcol] at hθ
    refine ⟨hθ.symm, ?_⟩
    intro s1 hstep
    have h := smootherStep_some P m fit t s s1 hstep
    refine ⟨h.2.2.2.2.1, h.2.2.2.2.2.1, h.2.2.2.2.2.2.1, h.2.2.2.2.2.2.2.1, ?_⟩
    rw [h.2.2.2.2.2.2.2.2.2]
    exact unpack_packColumn _ _ _
  · intro hnp
    subst hnp
    exact backward_step_reached P m fit hf t h1 htc

/-- Witness of C11: backward step `t = 2` of the end-to-end scenario (`T = 3`,
`R_3 = [13/8]`, invertible). -/
theorem backward_step_uses_forward_moments_witness :
    1 ≤ 2 ∧ ((2 : Nat) : Int) + 1 ≤ maxCoeff scalarModel.observations ∧
    (filterLoop (fixedDraw ℚ 1) scalarModel scalarEta () (2 + 1)).R_t.det ≠ 0 ∧
    (backwardDraw (fixedDraw ℚ 1) scalarModel
      (apply_Kalman_filter (fixedDraw ℚ 1) scalarModel scalarEta (Fit.new 1 ())) 2 0 1 ()).C_t =
      (filterLoop (fixedDraw ℚ 1) scalarModel scalarEta () 2).C_t ∧
    (backwardDraw (fixedDraw ℚ 1) scalarModel
      (apply_Kalman_filter (fixedDraw ℚ 1) scalarModel scalarEta (Fit.new 1 ())) 2 0 1 ()).R_t =
      (filterLoop (fixedDraw ℚ 1) scalarModel scalarEta () 3).R_t ∧
    ∃ (s s1 : SmootherState ℚ Unit 1 1),
      smootherStep (fixedDraw ℚ 1) scalarModel
        (apply_Kalman_filter (fixedDraw ℚ 1) scalarModel scalarEta (Fit.new 1 ())) 2 s =
        some s1 :=
  have hdet : (filterLoop (fixedDraw ℚ 1) scalarModel scalarEta () (2 + 1)).R_t.det ≠ 0 := by
    rw [(scalar_run (fixedDraw ℚ 1) ()).2.2.2.2.1, Matrix.det_unique]
    norm_num
  have h := backward_step_uses_forward_moments (fixedDraw ℚ 1) scalarModel scalarEta
    (Fit.new 1 ()) _ rfl 2 (by decide) (by decide) hdet
  ⟨by decide, by decide, hdet, (h.1 0 1 ()).2.2.2.1, (h.1 0 1 ()).2.2.2.2.2.1,
    (h.2.2 rfl).choose, (h.2.2 rfl).choose_spec.choose,
    (h.2.2 rfl).choose_spec.choose_spec.choose_spec.2.1⟩

end TimeSeriesFit
